import Mathlib

/-!
# Four-way intersection (`helgrind.c`): lock ordering, occupancy board, stop signal

A shallow embedding of `lane_fn` and `main` of `src/helgrind.c`.

* The POSIX mutex primitives are modelled on a four-valued mutex state.
* `lane_fn` is a small-step function over the program points of the C function; every
  statement of the loop body is one program point, and each step emits the events
  (lock, unlock, board read, board write, console line) the statement performs.
* `main` is straight-line code once its four `for` loops are unrolled; `main_code` is
  that instruction list and `main_step` executes the instruction under the program counter.
* `step` interleaves the five threads; `Reachable` and `exec` are the reachable states and
  the scheduled executions of the interleaving model.

All integers of the program that matter here (`req1`, `req2`, `id`, loop counters) are
non-negative `int`s and are embedded as `Nat`; a store into the `uint8_t` board is taken
modulo 256.
-/

namespace Helgrind

/-- Thread identities: the controller `main` and the four lane threads. -/
inductive Tid where
  | main
  | lane (i : Fin 4)
  deriving DecidableEq, Repr

/-- State of a `pthread_mutex_t`: a zeroed global before `pthread_mutex_init`, free, owned by a
thread, or destroyed. -/
inductive Mutex where
  | uninit
  | unlocked
  | locked (owner : Tid)
  | destroyed
  deriving DecidableEq, Repr

/-- POSIX `pthread_mutex_init` on a not yet initialised mutex. -/
def pthread_mutex_init : Mutex → Option Mutex
  | .uninit => some .unlocked
  | _ => none

/-- POSIX `pthread_mutex_lock`: succeeds on a free mutex; `none` means the caller cannot take
the step (it blocks on an owned mutex; locking an uninitialised or destroyed mutex is
undefined and also yields no step). -/
def pthread_mutex_lock (t : Tid) : Mutex → Option Mutex
  | .unlocked => some (.locked t)
  | _ => none

/-- POSIX `pthread_mutex_trylock`: returns `0` and takes a free mutex, returns `EBUSY` (16) and
leaves an owned mutex alone. -/
def pthread_mutex_trylock (t : Tid) : Mutex → Option (Nat × Mutex)
  | .unlocked => some (0, .locked t)
  | .locked o => some (16, .locked o)
  | _ => none

/-- POSIX `pthread_mutex_unlock` by the owner. -/
def pthread_mutex_unlock (t : Tid) : Mutex → Option Mutex
  | .locked o => if o = t then some .unlocked else none
  | _ => none

/-- POSIX `pthread_mutex_destroy`: defined on a free mutex only. -/
def pthread_mutex_destroy : Mutex → Option Mutex
  | .unlocked => some .destroyed
  | _ => none

/-- The globals `intersection[4]`, `mutex[4]` and `fin`. The globals `cond[4]` and `done` are
never read and are left out. -/
structure Shared where
  intersection : Nat → Nat
  mutex : Nat → Mutex
  fin : Mutex

/-- Observable events of one statement. The first group is emitted by `lane_fn`, the second
group is the instruction set of `main`; `unlock_fin` and `ret` occur in both. -/
inductive Event where
  | usleep
  | print_entering (id req1 : Nat)
  | lock (r : Nat)
  | print_in (id req1 req2 : Nat)
  | read (r v : Nat)
  | print_crashed (id occupant : Nat)
  | write (r v : Nat)
  | print_out (id req1 req2 : Nat)
  | unlock (r : Nat)
  | trylock_fin (result : Nat)
  | unlock_fin
  | ret
  | init_fin
  | init_mutex (r : Nat)
  | lock_fin
  | create (i : Nat)
  | sleep (seconds : Nat)
  | join (i : Nat)
  | destroy_mutex (r : Nat)
  | destroy_fin
  deriving DecidableEq, Repr

/-- Program points of `lane_fn`, one per statement of the `do ... while` body, plus the thread
not yet created and the thread that has returned. -/
inductive PC where
  | not_started
  | sleep
  | enter
  | lock_first
  | lock_second
  | inside
  | check1
  | check2
  | mark1
  | mark2
  | hold
  | leave
  | clear1
  | clear2
  | unlock_first
  | unlock_second
  | trylock
  | unlock_fin
  | returned
  deriving DecidableEq, Repr

/-- One statement of `lane_fn` run by thread `t` on descriptor `arg` (`id = arg[0]`,
`req1 = arg[0]`, `req2 = arg[1]`) at program point `pc`. The result is the emitted events, the
next program point and the new globals; `none` when the thread cannot step. -/
def lane_fn (t : Tid) (arg : Nat × Nat) (pc : PC) (m : Shared) :
    Option (List Event × PC × Shared) :=
  let id := arg.1
  let req1 := arg.1
  let req2 := arg.2
  match pc with
  | .not_started => none
  | .sleep => some ([.usleep], .enter, m)
  | .enter => some ([.print_entering id req1], .lock_first, m)
  | .lock_first =>
      let r := if req1 < req2 then req1 else req2
      (pthread_mutex_lock t (m.mutex r)).map fun x =>
        ([.lock r], .lock_second, { m with mutex := Function.update m.mutex r x })
  | .lock_second =>
      let r := if req1 < req2 then req2 else req1
      (pthread_mutex_lock t (m.mutex r)).map fun x =>
        ([.lock r], .inside, { m with mutex := Function.update m.mutex r x })
  | .inside => some ([.print_in id req1 req2], .check1, m)
  | .check1 =>
      some (.read req1 (m.intersection req1) ::
              (if m.intersection req1 ≠ 0 then [.print_crashed id (m.intersection req1)] else []),
            .check2, m)
  | .check2 =>
      some (.read req2 (m.intersection req2) ::
              (if m.intersection req2 ≠ 0 then [.print_crashed id (m.intersection req2)] else []),
            .mark1, m)
  | .mark1 =>
      some ([.write req1 (id % 256)], .mark2,
            { m with intersection := Function.update m.intersection req1 (id % 256) })
  | .mark2 =>
      some ([.write req2 (id % 256)], .hold,
            { m with intersection := Function.update m.intersection req2 (id % 256) })
  | .hold => some ([.usleep], .leave, m)
  | .leave => some ([.print_out id req1 req2], .clear1, m)
  | .clear1 =>
      some ([.write req1 0], .clear2,
            { m with intersection := Function.update m.intersection req1 0 })
  | .clear2 =>
      some ([.write req2 0], .unlock_first,
            { m with intersection := Function.update m.intersection req2 0 })
  | .unlock_first =>
      let r := if req1 < req2 then req2 else req1
      (pthread_mutex_unlock t (m.mutex r)).map fun x =>
        ([.unlock r], .unlock_second, { m with mutex := Function.update m.mutex r x })
  | .unlock_second =>
      let r := if req1 < req2 then req1 else req2
      (pthread_mutex_unlock t (m.mutex r)).map fun x =>
        ([.unlock r], .trylock, { m with mutex := Function.update m.mutex r x })
  | .trylock =>
      (pthread_mutex_trylock t m.fin).map fun res =>
        ([.trylock_fin res.1], if res.1 ≠ 0 then .sleep else .unlock_fin, { m with fin := res.2 })
  | .unlock_fin =>
      (pthread_mutex_unlock t m.fin).map fun x => ([.unlock_fin], .returned, { m with fin := x })
  | .returned => none

/-- The table `req[4][2]` of `main`. -/
def req : Fin 4 → Nat × Nat
  | 0 => (0, 1)
  | 1 => (1, 2)
  | 2 => (2, 3)
  | 3 => (3, 0)

/-- The statements of `main` in program order, the four `for` loops unrolled. The two
assignments to `local` and `done` that open `main` touch nothing any thread reads and are
left out. -/
def main_code : List Event :=
  [.init_fin] ++ (List.range 4).map .init_mutex ++
  [.lock_fin] ++ (List.range 4).map .create ++
  [.sleep 3, .unlock_fin] ++
  (List.range 4).map .join ++
  (List.range 4).map .destroy_mutex ++
  [.destroy_fin, .ret]

/-- A state of the whole program: the program counter of `main` (an index into `main_code`), the
program point of every lane thread, and the globals. -/
structure State where
  mainPc : Nat
  lanePc : Fin 4 → PC
  mem : Shared

/-- Effect of one instruction of `main` on the lane threads and the globals. `create i` starts
lane `i` at the top of its loop; `join i` can only be taken once lane `i` has returned. -/
def main_op (op : Event) (s : State) : Option State :=
  match op with
  | .init_fin =>
      (pthread_mutex_init s.mem.fin).map fun x => { s with mem := { s.mem with fin := x } }
  | .init_mutex r =>
      (pthread_mutex_init (s.mem.mutex r)).map fun x =>
        { s with mem := { s.mem with mutex := Function.update s.mem.mutex r x } }
  | .lock_fin =>
      (pthread_mutex_lock .main s.mem.fin).map fun x => { s with mem := { s.mem with fin := x } }
  | .create i =>
      if h : i < 4 then
        if s.lanePc ⟨i, h⟩ = .not_started then
          some { s with lanePc := Function.update s.lanePc ⟨i, h⟩ .sleep }
        else none
      else none
  | .sleep _ => some s
  | .unlock_fin =>
      (pthread_mutex_unlock .main s.mem.fin).map fun x => { s with mem := { s.mem with fin := x } }
  | .join i =>
      if h : i < 4 then
        if s.lanePc ⟨i, h⟩ = .returned then some s else none
      else none
  | .destroy_mutex r =>
      (pthread_mutex_destroy (s.mem.mutex r)).map fun x =>
        { s with mem := { s.mem with mutex := Function.update s.mem.mutex r x } }
  | .destroy_fin =>
      (pthread_mutex_destroy s.mem.fin).map fun x => { s with mem := { s.mem with fin := x } }
  | .ret => some s
  | _ => none

/-- One step of `main`: execute the instruction under the program counter. -/
def main_step (s : State) : Option (List Event × State) :=
  match main_code.get? s.mainPc with
  | none => none
  | some op => (main_op op s).map fun s1 => ([op], { s1 with mainPc := s.mainPc + 1 })

/-- One step of thread `t` in the interleaving model. -/
def step (t : Tid) (s : State) : Option (List Event × State) :=
  match t with
  | .main => main_step s
  | .lane i =>
      (lane_fn (.lane i) (req i) (s.lanePc i) s.mem).map fun r =>
        (r.1, { s with lanePc := Function.update s.lanePc i r.2.1, mem := r.2.2 })

/-- Program start: no thread created, zeroed globals. -/
def init : State :=
  { mainPc := 0
    lanePc := fun _ => .not_started
    mem := { intersection := fun _ => 0, mutex := fun _ => .uninit, fin := .uninit } }

/-- States reachable from `init` under any interleaving. -/
inductive Reachable : State → Prop where
  | init : Reachable init
  | step (t : Tid) (s s1 : State) (ev : List Event) :
      Reachable s → step t s = some (ev, s1) → Reachable s1

/-- Run a schedule (a list of thread choices) from `s`: a chosen thread that cannot step is
skipped. The result is the events of the steps taken, each tagged with its thread, and the
final state. -/
def exec : List Tid → State → List (Tid × Event) × State
  | [], s => ([], s)
  | t :: ts, s =>
      match step t s with
      | none => exec ts s
      | some (ev, s1) => (ev.map (fun e => (t, e)) ++ (exec ts s1).1, (exec ts s1).2)

/-- Run the statements of one lane thread in isolation from the others, one statement per
element of `ms`; the statement sees the globals given by that element (whatever the other
threads left there). The result is the events emitted and the program point reached. -/
def lane_trace (t : Tid) (arg : Nat × Nat) : List Shared → PC → Option (List Event × PC)
  | [], pc => some ([], pc)
  | m :: ms, pc =>
      match lane_fn t arg pc m with
      | none => none
      | some (ev, pc1, _) =>
          match lane_trace t arg ms pc1 with
          | none => none
          | some (tr, pc2) => some (ev ++ tr, pc2)

/-- Run `n` statements of one lane thread alone, starting from globals `m`. -/
def lane_run (t : Tid) (arg : Nat × Nat) : Nat → PC → Shared → Option (List Event × PC × Shared)
  | 0, pc, m => some ([], pc, m)
  | n + 1, pc, m =>
      match lane_fn t arg pc m with
      | none => none
      | some (ev, pc1, m1) =>
          match lane_run t arg n pc1 m1 with
          | none => none
          | some (tr, r) => some (ev ++ tr, r)

/-- The mutex `lane_fn` locks first: the lower of the two indices. -/
def first_lock (arg : Nat × Nat) : Nat := if arg.1 < arg.2 then arg.1 else arg.2

/-- The mutex `lane_fn` locks second: the higher of the two indices. -/
def second_lock (arg : Nat × Nat) : Nat := if arg.1 < arg.2 then arg.2 else arg.1

/-- Program points at which a lane owns the mutex it locked first. -/
def owns_first : PC → Bool
  | .lock_second | .inside | .check1 | .check2 | .mark1 | .mark2 | .hold | .leave | .clear1
  | .clear2 | .unlock_first | .unlock_second => true
  | _ => false

/-- Program points at which a lane owns the mutex it locked second. -/
def owns_second : PC → Bool
  | .inside | .check1 | .check2 | .mark1 | .mark2 | .hold | .leave | .clear1 | .clear2
  | .unlock_first => true
  | _ => false

/-- Lane with descriptor `arg` at program point `pc` owns `mutex[r]`. -/
def owns (arg : Nat × Nat) (pc : PC) (r : Nat) : Bool :=
  (decide (r = first_lock arg) && owns_first pc) || (decide (r = second_lock arg) && owns_second pc)

/-- Program points between the store `intersection[req1] = id` and its reset. -/
def marked1 : PC → Bool
  | .mark2 | .hold | .leave | .clear1 => true
  | _ => false

/-- Program points between the store `intersection[req2] = id` and its reset. -/
def marked2 : PC → Bool
  | .hold | .leave | .clear1 | .clear2 => true
  | _ => false

/-- Lane with descriptor `arg` at program point `pc` has its identity stored in
`intersection[r]`. -/
def marks (arg : Nat × Nat) (pc : PC) (r : Nat) : Bool :=
  (decide (r = arg.1) && marked1 pc) || (decide (r = arg.2) && marked2 pc)

/-- The invariant of the interleaving model: the globals are determined by the program
counters. -/
structure Inv (s : State) : Prop where
  pc_le : s.mainPc ≤ 22
  started : ∀ i : Fin 4, s.lanePc i = .not_started ↔ s.mainPc ≤ 6 + i.val
  joined : ∀ i : Fin 4, 12 + i.val < s.mainPc → s.lanePc i = .returned
  late : ∀ i : Fin 4, s.lanePc i = .returned → 12 ≤ s.mainPc
  mutex_uninit : ∀ r, s.mem.mutex r = .uninit ↔ (4 ≤ r ∨ s.mainPc ≤ 1 + r)
  mutex_destroyed : ∀ r, s.mem.mutex r = .destroyed ↔ (r < 4 ∧ 16 + r < s.mainPc)
  mutex_main : ∀ r, s.mem.mutex r ≠ .locked .main
  mutex_lane : ∀ r (i : Fin 4), s.mem.mutex r = .locked (.lane i) ↔ owns (req i) (s.lanePc i) r = true
  fin_uninit : s.mem.fin = .uninit ↔ s.mainPc = 0
  fin_main : s.mem.fin = .locked .main ↔ (6 ≤ s.mainPc ∧ s.mainPc ≤ 11)
  fin_lane : ∀ i : Fin 4, s.mem.fin = .locked (.lane i) ↔ s.lanePc i = .unlock_fin
  fin_destroyed : s.mem.fin = .destroyed ↔ 21 ≤ s.mainPc
  board_marked : ∀ r (i : Fin 4), marks (req i) (s.lanePc i) r = true →
    s.mem.intersection r = (req i).1 % 256
  board_empty : ∀ r, (∀ i : Fin 4, marks (req i) (s.lanePc i) r = false) →
    s.mem.intersection r = 0

/-- The event is a read or a write of `intersection[r]`. -/
def Event.touches (e : Event) (r : Nat) : Bool :=
  match e with
  | .read r1 _ => decide (r1 = r)
  | .write r1 _ => decide (r1 = r)
  | _ => false

/-- The event is a `pthread_mutex_lock` of a resource mutex. -/
def Event.is_lock : Event → Bool
  | .lock _ => true
  | _ => false

/-- The event is a `pthread_mutex_unlock` of a resource mutex. -/
def Event.is_unlock : Event → Bool
  | .unlock _ => true
  | _ => false

/-- The event is a read of the board. -/
def Event.is_read : Event → Bool
  | .read _ _ => true
  | _ => false

/-- The event is a store into the board. -/
def Event.is_write : Event → Bool
  | .write _ _ => true
  | _ => false

/-- The event is a "crashed into" console line. -/
def Event.is_crash : Event → Bool
  | .print_crashed _ _ => true
  | _ => false

/-- The event is a `pthread_create`. -/
def Event.is_create : Event → Bool
  | .create _ => true
  | _ => false

/-- The console lines of the two collision checks when the values read are `v1` and `v2`. -/
def crash_lines (id v : Nat) : List Event :=
  if v ≠ 0 then [.print_crashed id v] else []

/-- The events of the two collision checks when the board reads return `v1` and `v2`. -/
def cycle_checks (req1 req2 v1 v2 : Nat) : List Event :=
  [.print_in req1 req1 req2, .read req1 v1] ++ crash_lines req1 v1 ++
  [.read req2 v2] ++ crash_lines req1 v2

/-- The events from the first mark to the last clear. -/
def cycle_stores (req1 req2 : Nat) : List Event :=
  [.write req1 (req1 % 256), .write req2 (req1 % 256), .usleep, .print_out req1 req1 req2,
   .write req1 0, .write req2 0]

/-- The events of one full pass through the loop body of `lane_fn` for descriptor
`(req1, req2)`, when the two board reads return `v1` and `v2`. -/
def cycle_events (req1 req2 v1 v2 : Nat) : List Event :=
  [.usleep, .print_entering req1 req1, .lock (min req1 req2), .lock (max req1 req2)] ++
  cycle_checks req1 req2 v1 v2 ++ cycle_stores req1 req2 ++
  [.unlock (max req1 req2), .unlock (min req1 req2)]

/-- The globals a lane running alone sees before each of its next `n` statements. -/
def lane_run_globals (t : Tid) (arg : Nat × Nat) : Nat → PC → Shared → List Shared
  | 0, _, _ => []
  | n + 1, pc, m =>
      m :: (match lane_fn t arg pc m with
            | none => []
            | some (_, pc1, m1) => lane_run_globals t arg n pc1 m1)

/-- The resource mutex a lane is about to lock, if it is at a lock statement. -/
def wanted (s : State) (i : Fin 4) : Option Nat :=
  match s.lanePc i with
  | .lock_first => some (first_lock (req i))
  | .lock_second => some (second_lock (req i))
  | _ => none

/-- Lane `i` is blocked on a resource mutex: it is at a lock statement and cannot step. -/
def blocked (s : State) (i : Fin 4) : Prop :=
  (s.lanePc i = .lock_first ∨ s.lanePc i = .lock_second) ∧ step (.lane i) s = none

/-- Lane `i` waits for a resource mutex that lane `j` owns. -/
def waits_for (s : State) (i j : Fin 4) : Prop :=
  ∃ r, wanted s i = some r ∧ s.mem.mutex r = .locked (.lane j)

/-- Lane `i` owns some resource mutex. -/
def holds_mutex (s : State) (i : Fin 4) : Prop :=
  ∃ r, s.mem.mutex r = .locked (.lane i)

/-- Schedule: thread `t` chosen `n` times in a row. -/
def turns (t : Tid) (n : Nat) : List Tid := List.replicate n t

/-- Globals with all mutexes free and the given board. -/
def free_globals (board : Nat → Nat) : Shared :=
  { intersection := board, mutex := fun _ => .unlocked, fin := .locked .main }

/-- Globals in which thread `t` owns every resource mutex, with the given board. -/
def owned_globals (t : Tid) (board : Nat → Nat) : Shared :=
  { intersection := board, mutex := fun _ => .locked t, fin := .locked .main }

/-- The events of `main` in a trace, in order. -/
def main_events (tr : List (Tid × Event)) : List Event :=
  (tr.filter fun x => decide (x.1 = Tid.main)).map Prod.snd

/-- A complete run: `main` up to its unlock of `fin`, then each lane through one pass of the
loop, the winning `trylock`, the unlock of `fin` and the return, then `main` to its end. -/
def full_schedule : List Tid :=
  turns .main 12 ++ turns (.lane 0) 17 ++ turns (.lane 1) 17 ++ turns (.lane 2) 17 ++
  turns (.lane 3) 17 ++ turns .main 10

/-- All four lanes have returned and `main` has not yet joined them. -/
def terminal_schedule : List Tid :=
  turns .main 12 ++ turns (.lane 0) 17 ++ turns (.lane 1) 17 ++ turns (.lane 2) 17 ++
  turns (.lane 3) 17

/-- After `main` has unlocked `fin`, lane 0 runs one pass and wins `trylock` without yet
unlocking `fin`; lane 1 then runs three passes, each ending in a failed `trylock`. -/
def relock_schedule : List Tid :=
  turns .main 12 ++ turns (.lane 0) 16 ++ turns (.lane 1) 48

/-- Lane 1 owns `mutex[1]`; lane 0 owns `mutex[0]` and is at its second lock, which is
`mutex[1]`. -/
def contended_schedule : List Tid :=
  turns .main 10 ++ turns (.lane 1) 3 ++ turns (.lane 0) 3

/-- Lane 2 has run a whole pass (marking and clearing entries 2 and 3) and lane 1 is at its
first collision check, owning `mutex[1]` and `mutex[2]`. -/
def check_schedule : List Tid :=
  turns .main 10 ++ turns (.lane 2) 15 ++ turns (.lane 1) 5

/-- Lane 0 has executed both of its marks and is inside the intersection. -/
def lane0_marked_schedule : List Tid :=
  turns .main 7 ++ turns (.lane 0) 9

/-- The events of lane `i` in a trace, in order. -/
def lane_events (i : Fin 4) (tr : List (Tid × Event)) : List Event :=
  (tr.filter fun x => decide (x.1 = Tid.lane i)).map Prod.snd

/-- The resource index an event names, if it locks, unlocks, reads or writes one. -/
def Event.resource : Event → Option Nat
  | .lock r => some r
  | .unlock r => some r
  | .read r _ => some r
  | .write r _ => some r
  | _ => none

theorem lock_some (t : Tid) (m x : Mutex) :
    pthread_mutex_lock t m = some x ↔ m = .unlocked ∧ x = .locked t := by
  cases m <;> simp [pthread_mutex_lock, eq_comm]

theorem unlock_some (t : Tid) (m x : Mutex) :
    pthread_mutex_unlock t m = some x ↔ m = .locked t ∧ x = .unlocked := by
  cases m <;> simp [pthread_mutex_unlock, eq_comm]

theorem init_some (m x : Mutex) :
    pthread_mutex_init m = some x ↔ m = .uninit ∧ x = .unlocked := by
  cases m <;> simp [pthread_mutex_init, eq_comm]

theorem destroy_some (m x : Mutex) :
    pthread_mutex_destroy m = some x ↔ m = .unlocked ∧ x = .destroyed := by
  cases m <;> simp [pthread_mutex_destroy, eq_comm]

theorem req_val (i : Fin 4) : req i = (i.val, (i.val + 1) % 4) := by
  fin_cases i <;> rfl

theorem first_lock_ne_second_lock (i : Fin 4) : first_lock (req i) ≠ second_lock (req i) := by
  fin_cases i <;> decide

theorem first_lock_lt (i : Fin 4) : first_lock (req i) < 4 := by
  fin_cases i <;> decide

theorem second_lock_lt (i : Fin 4) : second_lock (req i) < 4 := by
  fin_cases i <;> decide

theorem first_lock_lt_second_lock (i : Fin 4) : first_lock (req i) < second_lock (req i) := by
  fin_cases i <;> decide

theorem req_fst_ne_snd (i : Fin 4) : (req i).1 ≠ (req i).2 := by
  fin_cases i <;> decide

theorem marks_owns (arg : Nat × Nat) (pc : PC) (r : Nat) (h : marks arg pc r = true) :
    owns arg pc r = true := by
  unfold marks at h
  unfold owns first_lock second_lock
  cases pc <;> simp [marked1, marked2, owns_first, owns_second] at h ⊢ <;> split_ifs <;> tauto

/-- Two lanes never own the same mutex. -/
theorem Inv.excl {s : State} (h : Inv s) {i j : Fin 4} {r : Nat}
    (hi : owns (req i) (s.lanePc i) r = true) (hj : owns (req j) (s.lanePc j) r = true) :
    i = j := by
  have h1 := (h.mutex_lane r i).2 hi
  have h2 := (h.mutex_lane r j).2 hj
  rw [h1] at h2
  simpa using h2

/-- A lane step that changes no global and moves between program points with the same
ownership and marking. -/
theorem inv_move (i : Fin 4) (s : State) (pc1 : PC) (h : Inv s)
    (h1 : owns_first pc1 = owns_first (s.lanePc i))
    (h2 : owns_second pc1 = owns_second (s.lanePc i))
    (h3 : marked1 pc1 = marked1 (s.lanePc i))
    (h4 : marked2 pc1 = marked2 (s.lanePc i))
    (h5 : (pc1 = .not_started ↔ s.lanePc i = .not_started))
    (h6 : (pc1 = .returned ↔ s.lanePc i = .returned))
    (h7 : (pc1 = .unlock_fin ↔ s.lanePc i = .unlock_fin)) :
    Inv { s with lanePc := Function.update s.lanePc i pc1 } := by
  have key : ∀ j r, owns (req j) (Function.update s.lanePc i pc1 j) r
      = owns (req j) (s.lanePc j) r := by
    intro j r
    rcases eq_or_ne j i with rfl | hj
    · simp [owns, h1, h2]
    · simp [Function.update_noteq hj]
  have key2 : ∀ j r, marks (req j) (Function.update s.lanePc i pc1 j) r
      = marks (req j) (s.lanePc j) r := by
    intro j r
    rcases eq_or_ne j i with rfl | hj
    · simp [marks, h3, h4]
    · simp [Function.update_noteq hj]
  have key3 : ∀ j, (Function.update s.lanePc i pc1 j = .not_started ↔ s.lanePc j = .not_started) ∧
      (Function.update s.lanePc i pc1 j = .returned ↔ s.lanePc j = .returned) ∧
      (Function.update s.lanePc i pc1 j = .unlock_fin ↔ s.lanePc j = .unlock_fin) := by
    intro j
    rcases eq_or_ne j i with rfl | hj
    · simp [h5, h6, h7]
    · simp [Function.update_noteq hj]
  constructor
  · exact h.pc_le
  · intro j; rw [(key3 j).1]; exact h.started j
  · intro j hj; rw [(key3 j).2.1]; exact h.joined j hj
  · intro j; rw [(key3 j).2.1]; exact h.late j
  · exact h.mutex_uninit
  · exact h.mutex_destroyed
  · exact h.mutex_main
  · intro r j; dsimp only; rw [key]; exact h.mutex_lane r j
  · exact h.fin_uninit
  · exact h.fin_main
  · intro j; dsimp only; rw [(key3 j).2.2]; exact h.fin_lane j
  · exact h.fin_destroyed
  · intro r j; dsimp only; rw [key2]; exact h.board_marked r j
  · intro r; dsimp only; simp only [key2]; exact h.board_empty r

/-- A lane step that locks or unlocks `mutex[r0]`. -/
theorem inv_mutex (i : Fin 4) (s : State) (pc1 : PC) (r0 : Nat) (x : Mutex) (h : Inv s)
    (h3 : marked1 pc1 = marked1 (s.lanePc i))
    (h4 : marked2 pc1 = marked2 (s.lanePc i))
    (h5 : (pc1 = .not_started ↔ s.lanePc i = .not_started))
    (h6 : (pc1 = .returned ↔ s.lanePc i = .returned))
    (h7 : (pc1 = .unlock_fin ↔ s.lanePc i = .unlock_fin))
    (h8 : ∀ r, r ≠ r0 → owns (req i) pc1 r = owns (req i) (s.lanePc i) r)
    (h9 : (x = .locked (.lane i) ∧ s.mem.mutex r0 = .unlocked ∧ owns (req i) pc1 r0 = true) ∨
          (x = .unlocked ∧ s.mem.mutex r0 = .locked (.lane i) ∧ owns (req i) pc1 r0 = false)) :
    Inv { s with lanePc := Function.update s.lanePc i pc1,
                 mem := { s.mem with mutex := Function.update s.mem.mutex r0 x } } := by
  have key2 : ∀ j r, marks (req j) (Function.update s.lanePc i pc1 j) r
      = marks (req j) (s.lanePc j) r := by
    intro j r
    rcases eq_or_ne j i with rfl | hj
    · simp [marks, h3, h4]
    · simp [Function.update_noteq hj]
  have key3 : ∀ j, (Function.update s.lanePc i pc1 j = .not_started ↔ s.lanePc j = .not_started) ∧
      (Function.update s.lanePc i pc1 j = .returned ↔ s.lanePc j = .returned) ∧
      (Function.update s.lanePc i pc1 j = .unlock_fin ↔ s.lanePc j = .unlock_fin) := by
    intro j
    rcases eq_or_ne j i with rfl | hj
    · simp [h5, h6, h7]
    · simp [Function.update_noteq hj]
  have hu := h.mutex_uninit r0
  have hd := h.mutex_destroyed r0
  have hx1 : x ≠ .uninit ∧ x ≠ .destroyed ∧ x ≠ .locked .main := by
    rcases h9 with ⟨rfl, -, -⟩ | ⟨rfl, -, -⟩ <;> simp
  have hm0 : s.mem.mutex r0 ≠ .uninit ∧ s.mem.mutex r0 ≠ .destroyed := by
    rcases h9 with ⟨-, e, -⟩ | ⟨-, e, -⟩ <;> simp [e]
  constructor
  · exact h.pc_le
  · intro j; rw [(key3 j).1]; exact h.started j
  · intro j hj; rw [(key3 j).2.1]; exact h.joined j hj
  · intro j; rw [(key3 j).2.1]; exact h.late j
  · intro r; dsimp only
    rcases eq_or_ne r r0 with rfl | hr
    · simp only [Function.update_same]
      constructor
      · intro e; exact absurd e hx1.1
      · intro e; exact absurd (hu.2 e) hm0.1
    · rw [Function.update_noteq hr]; exact h.mutex_uninit r
  · intro r; dsimp only
    rcases eq_or_ne r r0 with rfl | hr
    · simp only [Function.update_same]
      constructor
      · intro e; exact absurd e hx1.2.1
      · intro e; exact absurd (hd.2 e) hm0.2
    · rw [Function.update_noteq hr]; exact h.mutex_destroyed r
  · intro r; dsimp only
    rcases eq_or_ne r r0 with rfl | hr
    · simp only [Function.update_same]; exact hx1.2.2
    · rw [Function.update_noteq hr]; exact h.mutex_main r
  · intro r j; dsimp only
    rcases eq_or_ne r r0 with rfl | hr
    · simp only [Function.update_same]
      rcases eq_or_ne j i with rfl | hj
      · simp only [Function.update_same]
        rcases h9 with ⟨rfl, -, e⟩ | ⟨rfl, -, e⟩ <;> simp [e]
      · rw [Function.update_noteq hj, ← h.mutex_lane r j]
        rcases h9 with ⟨rfl, e, -⟩ | ⟨rfl, e, -⟩
        · simp [e, Ne.symm hj]
        · simp [e, Ne.symm hj]
    · rw [Function.update_noteq hr]
      rcases eq_or_ne j i with rfl | hj
      · simp only [Function.update_same]; rw [h8 r hr]; exact h.mutex_lane r j
      · rw [Function.update_noteq hj]; exact h.mutex_lane r j
  · exact h.fin_uninit
  · exact h.fin_main
  · intro j; dsimp only; rw [(key3 j).2.2]; exact h.fin_lane j
  · exact h.fin_destroyed
  · intro r j; dsimp only; rw [key2]; exact h.board_marked r j
  · intro r; dsimp only; simp only [key2]; exact h.board_empty r

/-- A lane step that stores into `intersection[r0]` while owning `mutex[r0]`. -/
theorem inv_board (i : Fin 4) (s : State) (pc1 : PC) (r0 v : Nat) (h : Inv s)
    (h1 : owns_first pc1 = owns_first (s.lanePc i))
    (h2 : owns_second pc1 = owns_second (s.lanePc i))
    (h5 : (pc1 = .not_started ↔ s.lanePc i = .not_started))
    (h6 : (pc1 = .returned ↔ s.lanePc i = .returned))
    (h7 : (pc1 = .unlock_fin ↔ s.lanePc i = .unlock_fin))
    (h8 : ∀ r, r ≠ r0 → marks (req i) pc1 r = marks (req i) (s.lanePc i) r)
    (ho : owns (req i) (s.lanePc i) r0 = true)
    (h9 : (v = (req i).1 % 256 ∧ marks (req i) pc1 r0 = true) ∨
          (v = 0 ∧ marks (req i) pc1 r0 = false)) :
    Inv { s with lanePc := Function.update s.lanePc i pc1,
                 mem := { s.mem with
                   intersection := Function.update s.mem.intersection r0 v } } := by
  have key : ∀ j r, owns (req j) (Function.update s.lanePc i pc1 j) r
      = owns (req j) (s.lanePc j) r := by
    intro j r
    rcases eq_or_ne j i with rfl | hj
    · simp [owns, h1, h2]
    · simp [Function.update_noteq hj]
  have key3 : ∀ j, (Function.update s.lanePc i pc1 j = .not_started ↔ s.lanePc j = .not_started) ∧
      (Function.update s.lanePc i pc1 j = .returned ↔ s.lanePc j = .returned) ∧
      (Function.update s.lanePc i pc1 j = .unlock_fin ↔ s.lanePc j = .unlock_fin) := by
    intro j
    rcases eq_or_ne j i with rfl | hj
    · simp [h5, h6, h7]
    · simp [Function.update_noteq hj]
  have others : ∀ j, j ≠ i → marks (req j) (s.lanePc j) r0 = false := by
    intro j hj
    by_contra hc
    simp only [Bool.not_eq_false] at hc
    exact hj (h.excl (marks_owns _ _ _ hc) ho)
  constructor
  · exact h.pc_le
  · intro j; rw [(key3 j).1]; exact h.started j
  · intro j hj; rw [(key3 j).2.1]; exact h.joined j hj
  · intro j; rw [(key3 j).2.1]; exact h.late j
  · exact h.mutex_uninit
  · exact h.mutex_destroyed
  · exact h.mutex_main
  · intro r j; dsimp only; rw [key]; exact h.mutex_lane r j
  · exact h.fin_uninit
  · exact h.fin_main
  · intro j; dsimp only; rw [(key3 j).2.2]; exact h.fin_lane j
  · exact h.fin_destroyed
  · intro r j; dsimp only
    rcases eq_or_ne j i with rfl | hj
    · simp only [Function.update_same]
      rcases eq_or_ne r r0 with rfl | hr
      · simp only [Function.update_same]
        rcases h9 with ⟨rfl, -⟩ | ⟨-, e⟩
        · intro _; rfl
        · intro e2; rw [e] at e2; exact absurd e2 (by simp)
      · rw [Function.update_noteq hr, h8 r hr]; exact h.board_marked r j
    · rw [Function.update_noteq hj]
      intro hm
      have hr : r ≠ r0 := by
        rintro rfl
        rw [others j hj] at hm
        exact absurd hm (by simp)
      rw [Function.update_noteq hr]; exact h.board_marked r j hm
  · intro r; dsimp only
    intro hall
    rcases eq_or_ne r r0 with rfl | hr
    · simp only [Function.update_same]
      rcases h9 with ⟨-, e⟩ | ⟨rfl, -⟩
      · have := hall i
        simp only [Function.update_same] at this
        rw [e] at this
        exact absurd this (by simp)
      · rfl
    · rw [Function.update_noteq hr]
      apply h.board_empty r
      intro j
      rcases eq_or_ne j i with rfl | hj
      · have := hall j
        simp only [Function.update_same] at this
        rw [← h8 r hr]; exact this
      · have := hall j
        rw [Function.update_noteq hj] at this
        exact this

/-- The lane wins `pthread_mutex_trylock(&fin)`. -/
theorem inv_trylock_won (i : Fin 4) (s : State) (h : Inv s) (hpc : s.lanePc i = .trylock)
    (hf : s.mem.fin = .unlocked) :
    Inv { s with lanePc := Function.update s.lanePc i .unlock_fin,
                 mem := { s.mem with fin := .locked (.lane i) } } := by
  have hst := h.started i
  have hjo := h.joined i
  have hfu := h.fin_uninit
  have hfm := h.fin_main
  have hfd := h.fin_destroyed
  rw [hpc] at hst hjo
  rw [hf] at hfu hfm hfd
  simp only [reduceCtorEq, false_iff, not_le, not_and] at hst hfu hfm hfd
  have key : ∀ j r, owns (req j) (Function.update s.lanePc i .unlock_fin j) r
      = owns (req j) (s.lanePc j) r := by
    intro j r
    rcases eq_or_ne j i with rfl | hj
    · simp [owns, hpc, owns_first, owns_second]
    · simp [Function.update_noteq hj]
  have key2 : ∀ j r, marks (req j) (Function.update s.lanePc i .unlock_fin j) r
      = marks (req j) (s.lanePc j) r := by
    intro j r
    rcases eq_or_ne j i with rfl | hj
    · simp [marks, hpc, marked1, marked2]
    · simp [Function.update_noteq hj]
  constructor
  · exact h.pc_le
  · intro j; dsimp only
    rcases eq_or_ne j i with rfl | hj
    · simp only [Function.update_same, reduceCtorEq, false_iff, not_le]; exact hst
    · rw [Function.update_noteq hj]; exact h.started j
  · intro j hj2; dsimp only at hj2 ⊢
    rcases eq_or_ne j i with rfl | hj
    · exact absurd (hjo hj2) (by simp)
    · rw [Function.update_noteq hj]; exact h.joined j hj2
  · intro j; dsimp only
    rcases eq_or_ne j i with rfl | hj
    · simp
    · rw [Function.update_noteq hj]; exact h.late j
  · exact h.mutex_uninit
  · exact h.mutex_destroyed
  · exact h.mutex_main
  · intro r j; dsimp only; rw [key]; exact h.mutex_lane r j
  · dsimp only; simp only [reduceCtorEq, false_iff]; exact hfu
  · dsimp only; simp only [Mutex.locked.injEq, reduceCtorEq, false_iff, not_and, not_le]
    exact hfm
  · intro j; dsimp only
    rcases eq_or_ne j i with rfl | hj
    · simp
    · rw [Function.update_noteq hj, ← h.fin_lane j, hf]
      simp [Ne.symm hj]
  · dsimp only; simp only [reduceCtorEq, false_iff, not_le]; exact hfd
  · intro r j; dsimp only; rw [key2]; exact h.board_marked r j
  · intro r; dsimp only; simp only [key2]; exact h.board_empty r

/-- The lane gives `fin` back and returns. -/
theorem inv_unlock_fin (i : Fin 4) (s : State) (h : Inv s) (hpc : s.lanePc i = .unlock_fin)
    (hf : s.mem.fin = .locked (.lane i)) :
    Inv { s with lanePc := Function.update s.lanePc i .returned,
                 mem := { s.mem with fin := .unlocked } } := by
  have hst := h.started i
  have hfu := h.fin_uninit
  have hfm := h.fin_main
  have hfd := h.fin_destroyed
  rw [hpc] at hst
  rw [hf] at hfu hfm hfd
  simp only [reduceCtorEq, false_iff, not_le, not_and, Mutex.locked.injEq] at hst hfu hfm hfd
  have key : ∀ j r, owns (req j) (Function.update s.lanePc i .returned j) r
      = owns (req j) (s.lanePc j) r := by
    intro j r
    rcases eq_or_ne j i with rfl | hj
    · simp [owns, hpc, owns_first, owns_second]
    · simp [Function.update_noteq hj]
  have key2 : ∀ j r, marks (req j) (Function.update s.lanePc i .returned j) r
      = marks (req j) (s.lanePc j) r := by
    intro j r
    rcases eq_or_ne j i with rfl | hj
    · simp [marks, hpc, marked1, marked2]
    · simp [Function.update_noteq hj]
  constructor
  · exact h.pc_le
  · intro j; dsimp only
    rcases eq_or_ne j i with rfl | hj
    · simp only [Function.update_same, reduceCtorEq, false_iff, not_le]; exact hst
    · rw [Function.update_noteq hj]; exact h.started j
  · intro j hj2; dsimp only at hj2 ⊢
    rcases eq_or_ne j i with rfl | hj
    · simp
    · rw [Function.update_noteq hj]; exact h.joined j hj2
  · intro j; dsimp only
    rcases eq_or_ne j i with rfl | hj
    · intro _; omega
    · rw [Function.update_noteq hj]; exact h.late j
  · exact h.mutex_uninit
  · exact h.mutex_destroyed
  · exact h.mutex_main
  · intro r j; dsimp only; rw [key]; exact h.mutex_lane r j
  · dsimp only; simp only [reduceCtorEq, false_iff]; exact hfu
  · dsimp only; simp only [reduceCtorEq, false_iff, not_and, not_le]
    exact hfm
  · intro j; dsimp only
    rcases eq_or_ne j i with rfl | hj
    · simp
    · rw [Function.update_noteq hj, ← h.fin_lane j, hf]
      simp [Ne.symm hj]
  · dsimp only; simp only [reduceCtorEq, false_iff, not_le]; exact hfd
  · intro r j; dsimp only; rw [key2]; exact h.board_marked r j
  · intro r; dsimp only; simp only [key2]; exact h.board_empty r

theorem owns_req_fst (i : Fin 4) (pc : PC) (h : owns_second pc = true) :
    owns (req i) pc (req i).1 = true := by
  have h1 : owns_first pc = true := by cases pc <;> simp_all [owns_first, owns_second]
  unfold owns first_lock second_lock
  split_ifs <;> simp [h, h1]

theorem owns_req_snd (i : Fin 4) (pc : PC) (h : owns_second pc = true) :
    owns (req i) pc (req i).2 = true := by
  have h1 : owns_first pc = true := by cases pc <;> simp_all [owns_first, owns_second]
  unfold owns first_lock second_lock
  split_ifs <;> simp [h, h1]

/-- Every step of a lane thread preserves the invariant. -/
theorem inv_lane_step (i : Fin 4) (s s1 : State) (ev : List Event) (h : Inv s)
    (hs : step (.lane i) s = some (ev, s1)) : Inv s1 := by
  simp only [step, Option.map_eq_some'] at hs
  obtain ⟨⟨ev1, pc1, m1⟩, hl, heq⟩ := hs
  simp only [Prod.mk.injEq] at heq
  obtain ⟨rfl, rfl⟩ := heq
  have hne := first_lock_ne_second_lock i
  have hne2 := req_fst_ne_snd i
  cases hpc : s.lanePc i <;> simp only [lane_fn, hpc, Option.map_eq_some', Option.some.injEq,
    Prod.mk.injEq, lock_some, unlock_some, reduceCtorEq] at hl
  case sleep =>
    obtain ⟨-, rfl, rfl⟩ := hl
    exact inv_move i s _ h (by simp [hpc, owns_first]) (by simp [hpc, owns_second])
      (by simp [hpc, marked1]) (by simp [hpc, marked2]) (by simp [hpc]) (by simp [hpc])
      (by simp [hpc])
  case enter =>
    obtain ⟨-, rfl, rfl⟩ := hl
    exact inv_move i s _ h (by simp [hpc, owns_first]) (by simp [hpc, owns_second])
      (by simp [hpc, marked1]) (by simp [hpc, marked2]) (by simp [hpc]) (by simp [hpc])
      (by simp [hpc])
  case inside =>
    obtain ⟨-, rfl, rfl⟩ := hl
    exact inv_move i s _ h (by simp [hpc, owns_first]) (by simp [hpc, owns_second])
      (by simp [hpc, marked1]) (by simp [hpc, marked2]) (by simp [hpc]) (by simp [hpc])
      (by simp [hpc])
  case check1 =>
    obtain ⟨-, rfl, rfl⟩ := hl
    exact inv_move i s _ h (by simp [hpc, owns_first]) (by simp [hpc, owns_second])
      (by simp [hpc, marked1]) (by simp [hpc, marked2]) (by simp [hpc]) (by simp [hpc])
      (by simp [hpc])
  case check2 =>
    obtain ⟨-, rfl, rfl⟩ := hl
    exact inv_move i s _ h (by simp [hpc, owns_first]) (by simp [hpc, owns_second])
      (by simp [hpc, marked1]) (by simp [hpc, marked2]) (by simp [hpc]) (by simp [hpc])
      (by simp [hpc])
  case hold =>
    obtain ⟨-, rfl, rfl⟩ := hl
    exact inv_move i s _ h (by simp [hpc, owns_first]) (by simp [hpc, owns_second])
      (by simp [hpc, marked1]) (by simp [hpc, marked2]) (by simp [hpc]) (by simp [hpc])
      (by simp [hpc])
  case leave =>
    obtain ⟨-, rfl, rfl⟩ := hl
    exact inv_move i s _ h (by simp [hpc, owns_first]) (by simp [hpc, owns_second])
      (by simp [hpc, marked1]) (by simp [hpc, marked2]) (by simp [hpc]) (by simp [hpc])
      (by simp [hpc])
  case lock_first =>
    obtain ⟨x, ⟨hm, rfl⟩, -, rfl, rfl⟩ := hl
    refine inv_mutex i s _ (first_lock (req i)) _ h (by simp [hpc, marked1])
      (by simp [hpc, marked2]) (by simp [hpc]) (by simp [hpc]) (by simp [hpc]) ?_ ?_
    · intro r hr; simp [hpc, owns, owns_first, owns_second, hr]
    · exact Or.inl ⟨rfl, hm, by simp [owns, owns_first]⟩
  case lock_second =>
    obtain ⟨x, ⟨hm, rfl⟩, -, rfl, rfl⟩ := hl
    refine inv_mutex i s _ (second_lock (req i)) _ h (by simp [hpc, marked1])
      (by simp [hpc, marked2]) (by simp [hpc]) (by simp [hpc]) (by simp [hpc]) ?_ ?_
    · intro r hr; simp [hpc, owns, owns_first, owns_second, hr]
    · exact Or.inl ⟨rfl, hm, by simp [owns, owns_second]⟩
  case unlock_first =>
    obtain ⟨x, ⟨hm, rfl⟩, -, rfl, rfl⟩ := hl
    refine inv_mutex i s _ (second_lock (req i)) _ h (by simp [hpc, marked1])
      (by simp [hpc, marked2]) (by simp [hpc]) (by simp [hpc]) (by simp [hpc]) ?_ ?_
    · intro r hr; simp [hpc, owns, owns_first, owns_second, hr]
    · exact Or.inr ⟨rfl, hm, by simp [owns, owns_first, owns_second, Ne.symm hne]⟩
  case unlock_second =>
    obtain ⟨x, ⟨hm, rfl⟩, -, rfl, rfl⟩ := hl
    refine inv_mutex i s _ (first_lock (req i)) _ h (by simp [hpc, marked1])
      (by simp [hpc, marked2]) (by simp [hpc]) (by simp [hpc]) (by simp [hpc]) ?_ ?_
    · intro r hr; simp [hpc, owns, owns_first, owns_second, hr]
    · exact Or.inr ⟨rfl, hm, by simp [owns, owns_first, owns_second]⟩
  case mark1 =>
    obtain ⟨-, rfl, rfl⟩ := hl
    refine inv_board i s _ (req i).1 _ h (by simp [hpc, owns_first]) (by simp [hpc, owns_second])
      (by simp [hpc]) (by simp [hpc]) (by simp [hpc]) ?_ ?_ ?_
    · intro r hr; simp [hpc, marks, marked1, marked2, hr]
    · rw [hpc]; exact owns_req_fst i _ rfl
    · exact Or.inl ⟨rfl, by simp [marks, marked1]⟩
  case mark2 =>
    obtain ⟨-, rfl, rfl⟩ := hl
    refine inv_board i s _ (req i).2 _ h (by simp [hpc, owns_first]) (by simp [hpc, owns_second])
      (by simp [hpc]) (by simp [hpc]) (by simp [hpc]) ?_ ?_ ?_
    · intro r hr; simp [hpc, marks, marked1, marked2, hr]
    · rw [hpc]; exact owns_req_snd i _ rfl
    · exact Or.inl ⟨rfl, by simp [marks, marked2]⟩
  case clear1 =>
    obtain ⟨-, rfl, rfl⟩ := hl
    refine inv_board i s _ (req i).1 _ h (by simp [hpc, owns_first]) (by simp [hpc, owns_second])
      (by simp [hpc]) (by simp [hpc]) (by simp [hpc]) ?_ ?_ ?_
    · intro r hr; simp [hpc, marks, marked1, marked2, hr]
    · rw [hpc]; exact owns_req_fst i _ rfl
    · exact Or.inr ⟨rfl, by simp [marks, marked1, marked2, hne2]⟩
  case clear2 =>
    obtain ⟨-, rfl, rfl⟩ := hl
    refine inv_board i s _ (req i).2 _ h (by simp [hpc, owns_first]) (by simp [hpc, owns_second])
      (by simp [hpc]) (by simp [hpc]) (by simp [hpc]) ?_ ?_ ?_
    · intro r hr; simp [hpc, marks, marked1, marked2, hr]
    · rw [hpc]; exact owns_req_snd i _ rfl
    · exact Or.inr ⟨rfl, by simp [marks, marked1, marked2]⟩
  case trylock =>
    obtain ⟨⟨a, b⟩, htl, -, rfl, rfl⟩ := hl
    cases hf : s.mem.fin <;> simp only [hf, pthread_mutex_trylock, Option.some.injEq,
      Prod.mk.injEq, reduceCtorEq] at htl
    case unlocked =>
      obtain ⟨rfl, rfl⟩ := htl
      exact inv_trylock_won i s h hpc hf
    case locked o =>
      obtain ⟨rfl, rfl⟩ := htl
      have := inv_move i s .sleep h (by simp [hpc, owns_first]) (by simp [hpc, owns_second])
        (by simp [hpc, marked1]) (by simp [hpc, marked2]) (by simp [hpc]) (by simp [hpc])
        (by simp [hpc])
      simpa [← hf] using this
  case unlock_fin =>
    obtain ⟨x, ⟨hm, rfl⟩, -, rfl, rfl⟩ := hl
    exact inv_unlock_fin i s h hpc hm

theorem inv_init : Inv init := by
  constructor <;> simp [init, owns, owns_first, owns_second, marks, marked1, marked2]
/-- The controller initialises `mutex[r0]`. -/
theorem inv_main_init_mutex (r0 : Nat) (hr0 : r0 < 4) (pcs : Fin 4 → PC) (m : Shared)
    (h : Inv ⟨1 + r0, pcs, m⟩) (hm : m.mutex r0 = .uninit) :
    Inv ⟨1 + r0 + 1, pcs, { m with mutex := Function.update m.mutex r0 .unlocked }⟩ := by
  obtain ⟨h1, h2, h3, h4, h5, h6, h7, h8, h9, h10, h11, h12, h13, h14⟩ := h
  dsimp only at h1 h2 h3 h4 h5 h6 h7 h8 h9 h10 h11 h12 h13 h14
  constructor <;> dsimp only
  · omega
  · intro i; rw [h2 i]; omega
  · intro i hi; omega
  · intro i hi; exact absurd (h4 i hi) (by omega)
  · intro r
    rcases eq_or_ne r r0 with rfl | hr
    · simp; omega
    · rw [Function.update_noteq hr, h5 r]; omega
  · intro r
    rcases eq_or_ne r r0 with rfl | hr
    · simp; omega
    · rw [Function.update_noteq hr, h6 r]; omega
  · intro r
    rcases eq_or_ne r r0 with rfl | hr
    · simp
    · rw [Function.update_noteq hr]; exact h7 r
  · intro r i
    rcases eq_or_ne r r0 with rfl | hr
    · rw [← h8 r i, hm]; simp
    · rw [Function.update_noteq hr]; exact h8 r i
  · rw [h9]; omega
  · rw [h10]; omega
  · exact h11
  · rw [h12]; omega
  · exact h13
  · exact h14

/-- The controller destroys `mutex[r0]`. -/
theorem inv_main_destroy_mutex (r0 : Nat) (hr0 : r0 < 4) (pcs : Fin 4 → PC) (m : Shared)
    (h : Inv ⟨16 + r0, pcs, m⟩) (hm : m.mutex r0 = .unlocked) :
    Inv ⟨16 + r0 + 1, pcs, { m with mutex := Function.update m.mutex r0 .destroyed }⟩ := by
  obtain ⟨h1, h2, h3, h4, h5, h6, h7, h8, h9, h10, h11, h12, h13, h14⟩ := h
  dsimp only at h1 h2 h3 h4 h5 h6 h7 h8 h9 h10 h11 h12 h13 h14
  constructor <;> dsimp only
  · omega
  · intro i; rw [h2 i]; omega
  · intro i hi; exact h3 i (by omega)
  · intro i hi; omega
  · intro r
    rcases eq_or_ne r r0 with rfl | hr
    · simp; omega
    · rw [Function.update_noteq hr, h5 r]; omega
  · intro r
    rcases eq_or_ne r r0 with rfl | hr
    · simp; omega
    · rw [Function.update_noteq hr, h6 r]; omega
  · intro r
    rcases eq_or_ne r r0 with rfl | hr
    · simp
    · rw [Function.update_noteq hr]; exact h7 r
  · intro r i
    rcases eq_or_ne r r0 with rfl | hr
    · rw [← h8 r i, hm]; simp
    · rw [Function.update_noteq hr]; exact h8 r i
  · rw [h9]; omega
  · rw [h10]; omega
  · exact h11
  · rw [h12]; omega
  · exact h13
  · exact h14

/-- The controller creates lane thread `i0`. -/
theorem inv_main_create (i0 : Fin 4) (pcs : Fin 4 → PC) (m : Shared)
    (h : Inv ⟨6 + i0.val, pcs, m⟩) (hf : pcs i0 = .not_started) :
    Inv ⟨6 + i0.val + 1, Function.update pcs i0 .sleep, m⟩ := by
  obtain ⟨h1, h2, h3, h4, h5, h6, h7, h8, h9, h10, h11, h12, h13, h14⟩ := h
  dsimp only at h1 h2 h3 h4 h5 h6 h7 h8 h9 h10 h11 h12 h13 h14
  have key : ∀ j, j ≠ i0 → Function.update pcs i0 PC.sleep j = pcs j :=
    fun j hj => Function.update_noteq hj _ _
  constructor <;> dsimp only
  · omega
  · intro i
    rcases eq_or_ne i i0 with rfl | hi
    · simp
    · rw [key i hi, h2 i]
      have : i.val ≠ i0.val := fun e => hi (Fin.ext e)
      omega
  · intro i hi; omega
  · intro i
    rcases eq_or_ne i i0 with rfl | hi
    · simp
    · rw [key i hi]; intro hi; exact absurd (h4 i hi) (by omega)
  · intro r; rw [h5 r]; omega
  · intro r; rw [h6 r]; omega
  · exact h7
  · intro r i
    rcases eq_or_ne i i0 with rfl | hi
    · rw [h8 r i, hf]; simp [owns, owns_first, owns_second]
    · rw [key i hi]; exact h8 r i
  · rw [h9]; omega
  · rw [h10]; omega
  · intro i
    rcases eq_or_ne i i0 with rfl | hi
    · rw [h11 i, hf]; simp
    · rw [key i hi]; exact h11 i
  · rw [h12]; omega
  · intro r i
    rcases eq_or_ne i i0 with rfl | hi
    · simp [marks, marked1, marked2]
    · rw [key i hi]; exact h13 r i
  · intro r hall
    apply h14 r
    intro i
    rcases eq_or_ne i i0 with rfl | hi
    · rw [hf]; simp [marks, marked1, marked2]
    · have := hall i; rwa [key i hi] at this

/-- The controller joins lane thread `i0`, which has returned. -/
theorem inv_main_join (i0 : Fin 4) (pcs : Fin 4 → PC) (m : Shared)
    (h : Inv ⟨12 + i0.val, pcs, m⟩) (hf : pcs i0 = .returned) :
    Inv ⟨12 + i0.val + 1, pcs, m⟩ := by
  obtain ⟨h1, h2, h3, h4, h5, h6, h7, h8, h9, h10, h11, h12, h13, h14⟩ := h
  dsimp only at h1 h2 h3 h4 h5 h6 h7 h8 h9 h10 h11 h12 h13 h14
  constructor <;> dsimp only
  · omega
  · intro i; rw [h2 i]; omega
  · intro i hi
    rcases eq_or_ne i i0 with rfl | hne
    · exact hf
    · have : i.val ≠ i0.val := fun e => hne (Fin.ext e)
      exact h3 i (by omega)
  · intro i hi; omega
  · intro r; rw [h5 r]; omega
  · intro r; rw [h6 r]; omega
  · exact h7
  · exact h8
  · rw [h9]; omega
  · rw [h10]; omega
  · exact h11
  · rw [h12]; omega
  · exact h13
  · exact h14

/-- The controller sleeps or returns: no global changes. -/
theorem inv_main_skip (k : Nat) (hk : k = 10 ∨ k = 21) (pcs : Fin 4 → PC) (m : Shared)
    (h : Inv ⟨k, pcs, m⟩) : Inv ⟨k + 1, pcs, m⟩ := by
  obtain ⟨h1, h2, h3, h4, h5, h6, h7, h8, h9, h10, h11, h12, h13, h14⟩ := h
  dsimp only at h1 h2 h3 h4 h5 h6 h7 h8 h9 h10 h11 h12 h13 h14
  constructor <;> dsimp only
  · omega
  · intro i; rw [h2 i]; omega
  · intro i hi; exact h3 i (by omega)
  · intro i hi; have := h4 i hi; omega
  · intro r; rw [h5 r]; omega
  · intro r; rw [h6 r]; omega
  · exact h7
  · exact h8
  · rw [h9]; omega
  · rw [h10]; omega
  · exact h11
  · rw [h12]; omega
  · exact h13
  · exact h14

/-- The controller initialises, locks, unlocks or destroys `fin`. -/
theorem inv_main_fin (k : Nat) (hk : k = 0 ∨ k = 5 ∨ k = 11 ∨ k = 20) (pcs : Fin 4 → PC)
    (m : Shared) (f : Mutex) (h : Inv ⟨k, pcs, m⟩)
    (hold : ∀ i, m.fin ≠ .locked (.lane i))
    (hnew : ∀ i, f ≠ .locked (.lane i))
    (hf1 : f ≠ .uninit) (hf2 : f = .locked .main ↔ k = 5) (hf3 : f = .destroyed ↔ k = 20) :
    Inv ⟨k + 1, pcs, { m with fin := f }⟩ := by
  obtain ⟨h1, h2, h3, h4, h5, h6, h7, h8, h9, h10, h11, h12, h13, h14⟩ := h
  dsimp only at h1 h2 h3 h4 h5 h6 h7 h8 h9 h10 h11 h12 h13 h14
  constructor <;> dsimp only
  · omega
  · intro i; rw [h2 i]; omega
  · intro i hi; exact h3 i (by omega)
  · intro i hi; have := h4 i hi; omega
  · intro r; rw [h5 r]; omega
  · intro r; rw [h6 r]; omega
  · exact h7
  · exact h8
  · simp [hf1]
  · rw [hf2]; omega
  · intro i
    rw [← h11 i]
    simp [hold i, hnew i]
  · rw [hf3]; omega
  · exact h13
  · exact h14

/-- Every step of the controller preserves the invariant. -/
theorem inv_main_step (s s1 : State) (ev : List Event) (h : Inv s)
    (hs : step .main s = some (ev, s1)) : Inv s1 := by
  obtain ⟨k, pcs, ⟨board, mtx, fin⟩⟩ := s
  simp only [step, main_step, List.get?_eq_getElem?] at hs
  have hk : k < 22 := by
    by_contra hc
    have : main_code[k]? = none := by
      rw [List.getElem?_eq_none_iff]; simpa [main_code] using hc
    simp [this] at hs
  have hfin : ∀ i : Fin 4, k < 12 → fin ≠ .locked (.lane i) := by
    intro i hk2 e
    have h1 := (h.fin_lane i).1 e
    have h2 := h.started i
    have h3 := h.fin_main
    dsimp only at h1 h2 h3
    rw [h1] at h2
    rw [e] at h3
    simp only [reduceCtorEq, false_iff, not_le, not_and, Mutex.locked.injEq] at h2 h3
    omega
  have hfin2 : ∀ i : Fin 4, 16 ≤ k → fin ≠ .locked (.lane i) := by
    intro i hk2 e
    have h1 := (h.fin_lane i).1 e
    have h2 := h.joined i (by dsimp only; omega)
    dsimp only at h1 h2
    rw [h1] at h2
    exact absurd h2 (by simp)
  interval_cases k <;>
    simp [main_code, List.range, List.range.loop, main_op,
      init_some, lock_some, unlock_some, destroy_some] at hs
  case «0» =>
    obtain ⟨a, ⟨hf, rfl⟩, -, rfl⟩ := hs
    exact inv_main_fin 0 (by omega) pcs _ _ h (fun i => hfin i (by omega)) (by simp) (by simp)
      (by simp) (by simp)
  case «5» =>
    obtain ⟨a, ⟨hf, rfl⟩, -, rfl⟩ := hs
    exact inv_main_fin 5 (by omega) pcs _ _ h (fun i => hfin i (by omega)) (by simp) (by simp)
      (by simp) (by simp)
  case «11» =>
    obtain ⟨a, ⟨hf, rfl⟩, -, rfl⟩ := hs
    exact inv_main_fin 11 (by omega) pcs _ _ h (fun i => hfin i (by omega)) (by simp) (by simp)
      (by simp) (by simp)
  case «20» =>
    obtain ⟨a, ⟨hf, rfl⟩, -, rfl⟩ := hs
    exact inv_main_fin 20 (by omega) pcs _ _ h (fun i => hfin2 i (by omega)) (by simp) (by simp)
      (by simp) (by simp)
  case «1» =>
    obtain ⟨a, ⟨hf, rfl⟩, -, rfl⟩ := hs
    exact inv_main_init_mutex 0 (by omega) pcs _ h hf
  case «2» =>
    obtain ⟨a, ⟨hf, rfl⟩, -, rfl⟩ := hs
    exact inv_main_init_mutex 1 (by omega) pcs _ h hf
  case «3» =>
    obtain ⟨a, ⟨hf, rfl⟩, -, rfl⟩ := hs
    exact inv_main_init_mutex 2 (by omega) pcs _ h hf
  case «4» =>
    obtain ⟨a, ⟨hf, rfl⟩, -, rfl⟩ := hs
    exact inv_main_init_mutex 3 (by omega) pcs _ h hf
  case «16» =>
    obtain ⟨a, ⟨hf, rfl⟩, -, rfl⟩ := hs
    exact inv_main_destroy_mutex 0 (by omega) pcs _ h hf
  case «17» =>
    obtain ⟨a, ⟨hf, rfl⟩, -, rfl⟩ := hs
    exact inv_main_destroy_mutex 1 (by omega) pcs _ h hf
  case «18» =>
    obtain ⟨a, ⟨hf, rfl⟩, -, rfl⟩ := hs
    exact inv_main_destroy_mutex 2 (by omega) pcs _ h hf
  case «19» =>
    obtain ⟨a, ⟨hf, rfl⟩, -, rfl⟩ := hs
    exact inv_main_destroy_mutex 3 (by omega) pcs _ h hf
  case «6» =>
    obtain ⟨hf, -, rfl⟩ := hs
    exact inv_main_create 0 pcs _ h hf
  case «7» =>
    obtain ⟨hf, -, rfl⟩ := hs
    exact inv_main_create 1 pcs _ h hf
  case «8» =>
    obtain ⟨hf, -, rfl⟩ := hs
    exact inv_main_create 2 pcs _ h hf
  case «9» =>
    obtain ⟨hf, -, rfl⟩ := hs
    exact inv_main_create 3 pcs _ h hf
  case «12» =>
    obtain ⟨hf, -, rfl⟩ := hs
    exact inv_main_join 0 pcs _ h hf
  case «13» =>
    obtain ⟨hf, -, rfl⟩ := hs
    exact inv_main_join 1 pcs _ h hf
  case «14» =>
    obtain ⟨hf, -, rfl⟩ := hs
    exact inv_main_join 2 pcs _ h hf
  case «15» =>
    obtain ⟨hf, -, rfl⟩ := hs
    exact inv_main_join 3 pcs _ h hf
  case «10» =>
    obtain ⟨-, rfl⟩ := hs
    exact inv_main_skip 10 (by omega) pcs _ h
  case «21» =>
    obtain ⟨-, rfl⟩ := hs
    exact inv_main_skip 21 (by omega) pcs _ h

/-- The invariant holds in every reachable state. -/
theorem inv_of_reachable (s : State) (h : Reachable s) : Inv s := by
  induction h with
  | init => exact inv_init
  | step t s s1 ev _ hs ih =>
      cases t with
      | main => exact inv_main_step s s1 ev ih hs
      | lane i => exact inv_lane_step i s s1 ev ih hs

theorem list_length_fifteen (ms : List Shared) (h : ms.length = 15) :
    ∃ m0 m1 m2 m3 m4 m5 m6 m7 m8 m9 m10 m11 m12 m13 m14, ms = [m0, m1, m2, m3, m4, m5, m6, m7, m8, m9, m10, m11, m12, m13, m14] := by
  rcases ms with _ | ⟨m0, _ | ⟨m1, _ | ⟨m2, _ | ⟨m3, _ | ⟨m4, _ | ⟨m5, _ | ⟨m6, _ | ⟨m7, _ | ⟨m8, _ | ⟨m9, _ | ⟨m10, _ | ⟨m11, _ | ⟨m12, _ | ⟨m13, _ | ⟨m14, _ | ⟨m15, rest⟩⟩⟩⟩⟩⟩⟩⟩⟩⟩⟩⟩⟩⟩⟩⟩
  all_goals simp at h
  exact ⟨_, _, _, _, _, _, _, _, _, _, _, _, _, _, _, rfl⟩

theorem first_lock_eq_min (a b : Nat) : (if a < b then a else b) = min a b := by
  split_ifs <;> omega

theorem second_lock_eq_max (a b : Nat) : (if a < b then b else a) = max a b := by
  split_ifs <;> omega

theorem lane_trace_step {t : Tid} {arg : Nat × Nat} {m : Shared} {ms : List Shared} {pc pc2 : PC}
    {tr : List Event} (h : lane_trace t arg (m :: ms) pc = some (tr, pc2)) :
    ∃ ev pc1 m1 tr1, lane_fn t arg pc m = some (ev, pc1, m1) ∧
      lane_trace t arg ms pc1 = some (tr1, pc2) ∧ tr = ev ++ tr1 := by
  unfold lane_trace at h
  cases h1 : lane_fn t arg pc m with
  | none => simp [h1] at h
  | some r =>
      obtain ⟨ev, pc1, m1⟩ := r
      simp only [h1] at h
      cases h2 : lane_trace t arg ms pc1 with
      | none => simp [h2] at h
      | some r2 =>
          obtain ⟨tr1, pc3⟩ := r2
          simp only [h2, Option.some.injEq, Prod.mk.injEq] at h
          obtain ⟨rfl, rfl⟩ := h
          exact ⟨ev, pc1, m1, tr1, rfl, h2, rfl⟩

/-- Events and successor of every statement of `lane_fn` other than the loop test. -/
theorem lane_fn_events {t : Tid} {a b : Nat} {pc pc1 : PC} {m m1 : Shared} {ev : List Event}
    (h : lane_fn t (a, b) pc m = some (ev, pc1, m1)) :
    match pc with
    | .sleep => ev = [.usleep] ∧ pc1 = .enter
    | .enter => ev = [.print_entering a a] ∧ pc1 = .lock_first
    | .lock_first => ev = [.lock (min a b)] ∧ pc1 = .lock_second
    | .lock_second => ev = [.lock (max a b)] ∧ pc1 = .inside
    | .inside => ev = [.print_in a a b] ∧ pc1 = .check1
    | .check1 => ev = .read a (m.intersection a) :: crash_lines a (m.intersection a) ∧ pc1 = .check2
    | .check2 => ev = .read b (m.intersection b) :: crash_lines a (m.intersection b) ∧ pc1 = .mark1
    | .mark1 => ev = [.write a (a % 256)] ∧ pc1 = .mark2
    | .mark2 => ev = [.write b (a % 256)] ∧ pc1 = .hold
    | .hold => ev = [.usleep] ∧ pc1 = .leave
    | .leave => ev = [.print_out a a b] ∧ pc1 = .clear1
    | .clear1 => ev = [.write a 0] ∧ pc1 = .clear2
    | .clear2 => ev = [.write b 0] ∧ pc1 = .unlock_first
    | .unlock_first => ev = [.unlock (max a b)] ∧ pc1 = .unlock_second
    | .unlock_second => ev = [.unlock (min a b)] ∧ pc1 = .trylock
    | .trylock => ∃ c, ev = [.trylock_fin c] ∧ (pc1 = .sleep ∨ pc1 = .unlock_fin)
    | .unlock_fin => ev = [.unlock_fin] ∧ pc1 = .returned
    | .not_started => False
    | .returned => False := by
  cases pc <;> simp only [lane_fn, Option.map_eq_some', Option.some.injEq, Prod.mk.injEq,
    first_lock_eq_min, second_lock_eq_max, reduceCtorEq] at h ⊢
  case sleep => exact ⟨h.1.symm, h.2.1.symm⟩
  case enter => exact ⟨h.1.symm, h.2.1.symm⟩
  case inside => exact ⟨h.1.symm, h.2.1.symm⟩
  case check1 => exact ⟨h.1.symm, h.2.1.symm⟩
  case check2 => exact ⟨h.1.symm, h.2.1.symm⟩
  case mark1 => exact ⟨h.1.symm, h.2.1.symm⟩
  case mark2 => exact ⟨h.1.symm, h.2.1.symm⟩
  case hold => exact ⟨h.1.symm, h.2.1.symm⟩
  case leave => exact ⟨h.1.symm, h.2.1.symm⟩
  case clear1 => exact ⟨h.1.symm, h.2.1.symm⟩
  case clear2 => exact ⟨h.1.symm, h.2.1.symm⟩
  case lock_first => obtain ⟨x, -, h1, h2, -⟩ := h; exact ⟨h1.symm, h2.symm⟩
  case lock_second => obtain ⟨x, -, h1, h2, -⟩ := h; exact ⟨h1.symm, h2.symm⟩
  case unlock_first => obtain ⟨x, -, h1, h2, -⟩ := h; exact ⟨h1.symm, h2.symm⟩
  case unlock_second => obtain ⟨x, -, h1, h2, -⟩ := h; exact ⟨h1.symm, h2.symm⟩
  case unlock_fin => obtain ⟨x, -, h1, h2, -⟩ := h; exact ⟨h1.symm, h2.symm⟩
  case trylock =>
    obtain ⟨x, -, h1, h2, -⟩ := h
    refine ⟨x.1, h1.symm, ?_⟩
    rw [← h2]
    split_ifs <;> simp

/-- Shape of a completed pass through the loop body, whatever the other threads do to the
globals between the statements. -/
theorem lane_trace_cycle (t : Tid) (req1 req2 : Nat) (ms : List Shared) (hlen : ms.length = 15)
    (tr : List Event) (pc : PC)
    (h : lane_trace t (req1, req2) ms .sleep = some (tr, pc)) :
    pc = .trylock ∧ ∃ v1 v2, tr = cycle_events req1 req2 v1 v2 := by
  obtain ⟨m0, m1, m2, m3, m4, m5, m6, m7, m8, m9, m10, m11, m12, m13, m14, rfl⟩ := list_length_fifteen ms hlen
  obtain ⟨e0, p0, n0, t0, hs, h, rfl⟩ := lane_trace_step h
  have hf := lane_fn_events hs
  dsimp only at hf
  obtain ⟨rfl, rfl⟩ := hf
  clear hs
  obtain ⟨e1, p1, n1, t1, hs, h, rfl⟩ := lane_trace_step h
  have hf := lane_fn_events hs
  dsimp only at hf
  obtain ⟨rfl, rfl⟩ := hf
  clear hs
  obtain ⟨e2, p2, n2, t2, hs, h, rfl⟩ := lane_trace_step h
  have hf := lane_fn_events hs
  dsimp only at hf
  obtain ⟨rfl, rfl⟩ := hf
  clear hs
  obtain ⟨e3, p3, n3, t3, hs, h, rfl⟩ := lane_trace_step h
  have hf := lane_fn_events hs
  dsimp only at hf
  obtain ⟨rfl, rfl⟩ := hf
  clear hs
  obtain ⟨e4, p4, n4, t4, hs, h, rfl⟩ := lane_trace_step h
  have hf := lane_fn_events hs
  dsimp only at hf
  obtain ⟨rfl, rfl⟩ := hf
  clear hs
  obtain ⟨e5, p5, n5, t5, hs, h, rfl⟩ := lane_trace_step h
  have hf := lane_fn_events hs
  dsimp only at hf
  obtain ⟨rfl, rfl⟩ := hf
  clear hs
  obtain ⟨e6, p6, n6, t6, hs, h, rfl⟩ := lane_trace_step h
  have hf := lane_fn_events hs
  dsimp only at hf
  obtain ⟨rfl, rfl⟩ := hf
  clear hs
  obtain ⟨e7, p7, n7, t7, hs, h, rfl⟩ := lane_trace_step h
  have hf := lane_fn_events hs
  dsimp only at hf
  obtain ⟨rfl, rfl⟩ := hf
  clear hs
  obtain ⟨e8, p8, n8, t8, hs, h, rfl⟩ := lane_trace_step h
  have hf := lane_fn_events hs
  dsimp only at hf
  obtain ⟨rfl, rfl⟩ := hf
  clear hs
  obtain ⟨e9, p9, n9, t9, hs, h, rfl⟩ := lane_trace_step h
  have hf := lane_fn_events hs
  dsimp only at hf
  obtain ⟨rfl, rfl⟩ := hf
  clear hs
  obtain ⟨e10, p10, n10, t10, hs, h, rfl⟩ := lane_trace_step h
  have hf := lane_fn_events hs
  dsimp only at hf
  obtain ⟨rfl, rfl⟩ := hf
  clear hs
  obtain ⟨e11, p11, n11, t11, hs, h, rfl⟩ := lane_trace_step h
  have hf := lane_fn_events hs
  dsimp only at hf
  obtain ⟨rfl, rfl⟩ := hf
  clear hs
  obtain ⟨e12, p12, n12, t12, hs, h, rfl⟩ := lane_trace_step h
  have hf := lane_fn_events hs
  dsimp only at hf
  obtain ⟨rfl, rfl⟩ := hf
  clear hs
  obtain ⟨e13, p13, n13, t13, hs, h, rfl⟩ := lane_trace_step h
  have hf := lane_fn_events hs
  dsimp only at hf
  obtain ⟨rfl, rfl⟩ := hf
  clear hs
  obtain ⟨e14, p14, n14, t14, hs, h, rfl⟩ := lane_trace_step h
  have hf := lane_fn_events hs
  dsimp only at hf
  obtain ⟨rfl, rfl⟩ := hf
  clear hs
  simp only [lane_trace, Option.some.injEq, Prod.mk.injEq] at h
  obtain ⟨rfl, rfl⟩ := h
  exact ⟨rfl, m5.intersection req1, m6.intersection req2, by simp [cycle_events, cycle_checks, cycle_stores]⟩

theorem crash_lines_filter (id v : Nat) (p : Event → Bool)
    (hp : ∀ x y, p (.print_crashed x y) = false) : (crash_lines id v).filter p = [] := by
  unfold crash_lines
  split_ifs <;> simp [hp]

theorem lane_run_succ {t : Tid} {arg : Nat × Nat} {n : Nat} {pc pc1 : PC} {m m1 : Shared}
    {ev : List Event} (h : lane_fn t arg pc m = some (ev, pc1, m1)) :
    lane_run t arg (n + 1) pc m
      = (lane_run t arg n pc1 m1).map (fun r => (ev ++ r.1, r.2)) := by
  simp only [lane_run, h]
  cases lane_run t arg n pc1 m1 <;> rfl

theorem lane_fn_lock_first_eq (t : Tid) (a b : Nat) (m : Shared)
    (h : m.mutex (min a b) = .unlocked) :
    lane_fn t (a, b) .lock_first m = some ([.lock (min a b)], .lock_second,
      { m with mutex := Function.update m.mutex (min a b) (.locked t) }) := by
  simp [lane_fn, first_lock_eq_min, h, pthread_mutex_lock]

theorem lane_fn_lock_second_eq (t : Tid) (a b : Nat) (m : Shared)
    (h : m.mutex (max a b) = .unlocked) :
    lane_fn t (a, b) .lock_second m = some ([.lock (max a b)], .inside,
      { m with mutex := Function.update m.mutex (max a b) (.locked t) }) := by
  simp [lane_fn, second_lock_eq_max, h, pthread_mutex_lock]

theorem lane_fn_unlock_first_eq (t : Tid) (a b : Nat) (m : Shared)
    (h : m.mutex (max a b) = .locked t) :
    lane_fn t (a, b) .unlock_first m = some ([.unlock (max a b)], .unlock_second,
      { m with mutex := Function.update m.mutex (max a b) .unlocked }) := by
  simp [lane_fn, second_lock_eq_max, h, pthread_mutex_unlock]

theorem lane_fn_unlock_second_eq (t : Tid) (a b : Nat) (m : Shared)
    (h : m.mutex (min a b) = .locked t) :
    lane_fn t (a, b) .unlock_second m = some ([.unlock (min a b)], .trylock,
      { m with mutex := Function.update m.mutex (min a b) .unlocked }) := by
  simp [lane_fn, first_lock_eq_min, h, pthread_mutex_unlock]

/-- A lane alone, with both of its mutexes free, runs a full pass through the loop body and
leaves its board entries empty and its mutexes free. -/
theorem lane_run_cycle (t : Tid) (req1 req2 : Nat) (hne : req1 ≠ req2) (m : Shared)
    (hm1 : m.mutex req1 = .unlocked) (hm2 : m.mutex req2 = .unlocked) :
    ∃ r, lane_run t (req1, req2) 15 .sleep m = some r ∧
      r.1 = cycle_events req1 req2 (m.intersection req1) (m.intersection req2) ∧
      r.2.1 = .trylock ∧
      r.2.2.intersection req1 = 0 ∧ r.2.2.intersection req2 = 0 ∧
      r.2.2.mutex req1 = .unlocked ∧ r.2.2.mutex req2 = .unlocked := by
  have hmin : m.mutex (min req1 req2) = .unlocked := by
    rcases Nat.le_total req1 req2 with h | h <;> simp [h, hm1, hm2]
  have hmax : m.mutex (max req1 req2) = .unlocked := by
    rcases Nat.le_total req1 req2 with h | h <;> simp [h, hm1, hm2]
  have hmm : max req1 req2 ≠ min req1 req2 := by omega
  rw [lane_run_succ (show lane_fn t (req1, req2) .sleep m = some (_, _, _) from rfl),
    lane_run_succ (show lane_fn t (req1, req2) .enter m = some (_, _, _) from rfl),
    lane_run_succ (lane_fn_lock_first_eq t req1 req2 m hmin),
    lane_run_succ (lane_fn_lock_second_eq t req1 req2 _ (by simp [Function.update_noteq hmm, hmax])),
    lane_run_succ (show lane_fn t (req1, req2) .inside _ = some (_, _, _) from rfl),
    lane_run_succ (show lane_fn t (req1, req2) .check1 _ = some (_, _, _) from rfl),
    lane_run_succ (show lane_fn t (req1, req2) .check2 _ = some (_, _, _) from rfl),
    lane_run_succ (show lane_fn t (req1, req2) .mark1 _ = some (_, _, _) from rfl),
    lane_run_succ (show lane_fn t (req1, req2) .mark2 _ = some (_, _, _) from rfl),
    lane_run_succ (show lane_fn t (req1, req2) .hold _ = some (_, _, _) from rfl),
    lane_run_succ (show lane_fn t (req1, req2) .leave _ = some (_, _, _) from rfl),
    lane_run_succ (show lane_fn t (req1, req2) .clear1 _ = some (_, _, _) from rfl),
    lane_run_succ (show lane_fn t (req1, req2) .clear2 _ = some (_, _, _) from rfl),
    lane_run_succ (lane_fn_unlock_first_eq t req1 req2 _ (by simp)),
    lane_run_succ (lane_fn_unlock_second_eq t req1 req2 _
      (by simp [Function.update_noteq hmm.symm]))]
  simp only [lane_run, Option.map_some']
  refine ⟨_, rfl, ?_, ?_⟩
  · simp [cycle_events, cycle_checks, cycle_stores, crash_lines]
  · rcases Nat.lt_or_gt_of_ne hne with h | h
    · have e1 : min req1 req2 = req1 := by omega
      have e2 : max req1 req2 = req2 := by omega
      rw [e1, e2]
      simp [Function.update_noteq hne, Function.update_noteq hne.symm, hm1, hm2]
    · have e1 : min req1 req2 = req2 := by omega
      have e2 : max req1 req2 = req1 := by omega
      rw [e1, e2]
      simp [Function.update_noteq hne, Function.update_noteq hne.symm, hm1, hm2]

/-- A lane that owns both of its mutexes runs from the statement before its checks through the
checks, the marks, the clears and both unlocks to the loop test, whatever the board holds. -/
theorem lane_run_inside (t : Tid) (req1 req2 : Nat) (hne : req1 ≠ req2) (m : Shared)
    (hm1 : m.mutex req1 = .locked t) (hm2 : m.mutex req2 = .locked t) :
    ∃ r, lane_run t (req1, req2) 11 .inside m = some r ∧
      r.1 = cycle_checks req1 req2 (m.intersection req1) (m.intersection req2) ++
          cycle_stores req1 req2 ++ [.unlock (max req1 req2), .unlock (min req1 req2)] ∧
      r.2.1 = .trylock := by
  have hmin : m.mutex (min req1 req2) = .locked t := by
    rcases Nat.le_total req1 req2 with h | h <;> simp [h, hm1, hm2]
  have hmax : m.mutex (max req1 req2) = .locked t := by
    rcases Nat.le_total req1 req2 with h | h <;> simp [h, hm1, hm2]
  have hmm : max req1 req2 ≠ min req1 req2 := by omega
  rw [lane_run_succ (show lane_fn t (req1, req2) .inside m = some (_, _, _) from rfl),
    lane_run_succ (show lane_fn t (req1, req2) .check1 _ = some (_, _, _) from rfl),
    lane_run_succ (show lane_fn t (req1, req2) .check2 _ = some (_, _, _) from rfl),
    lane_run_succ (show lane_fn t (req1, req2) .mark1 _ = some (_, _, _) from rfl),
    lane_run_succ (show lane_fn t (req1, req2) .mark2 _ = some (_, _, _) from rfl),
    lane_run_succ (show lane_fn t (req1, req2) .hold _ = some (_, _, _) from rfl),
    lane_run_succ (show lane_fn t (req1, req2) .leave _ = some (_, _, _) from rfl),
    lane_run_succ (show lane_fn t (req1, req2) .clear1 _ = some (_, _, _) from rfl),
    lane_run_succ (show lane_fn t (req1, req2) .clear2 _ = some (_, _, _) from rfl),
    lane_run_succ (lane_fn_unlock_first_eq t req1 req2 _ (by simpa using hmax)),
    lane_run_succ (lane_fn_unlock_second_eq t req1 req2 _
      (by simp [Function.update_noteq hmm.symm, hmin]))]
  simp only [lane_run, Option.map_some']
  refine ⟨_, rfl, ?_, rfl⟩
  simp [cycle_checks, cycle_stores, crash_lines]

theorem cycle_events_locks (a b v1 v2 : Nat) :
    (cycle_events a b v1 v2).filter Event.is_lock = [.lock (min a b), .lock (max a b)] := by
  simp [cycle_events, cycle_checks, cycle_stores, List.filter_cons, Event.is_lock,
    crash_lines_filter]

theorem cycle_events_unlocks (a b v1 v2 : Nat) :
    (cycle_events a b v1 v2).filter Event.is_unlock = [.unlock (max a b), .unlock (min a b)] := by
  simp [cycle_events, cycle_checks, cycle_stores, List.filter_cons, Event.is_unlock,
    crash_lines_filter]

theorem cycle_events_lock_unlock (a b v1 v2 : Nat) :
    (cycle_events a b v1 v2).filter (fun e => e.is_lock || e.is_unlock)
      = [.lock (min a b), .lock (max a b), .unlock (max a b), .unlock (min a b)] := by
  simp [cycle_events, cycle_checks, cycle_stores, List.filter_cons, Event.is_lock,
    Event.is_unlock, crash_lines_filter]

theorem crash_lines_touches (id v r : Nat) : ∀ e ∈ crash_lines id v, e.touches r = false := by
  unfold crash_lines
  split_ifs <;> simp [Event.touches]

theorem crash_lines_flags (id v : Nat) : ∀ e ∈ crash_lines id v,
    e.is_write = false ∧ e.is_unlock = false ∧ e ≠ .unlock id ∧ e.is_read = false := by
  unfold crash_lines
  split_ifs <;> simp [Event.is_write, Event.is_unlock, Event.is_read]

theorem cycle_checks_touches (a b v1 v2 r : Nat) (e : Event) (he : e ∈ cycle_checks a b v1 v2)
    (ht : e.touches r = true) : r = a ∨ r = b := by
  simp only [cycle_checks, List.mem_append, List.mem_cons, List.mem_singleton,
    List.not_mem_nil, or_false] at he
  rcases he with ((((rfl | rfl) | he) | rfl) | he)
  · simp [Event.touches] at ht
  · simp [Event.touches] at ht; exact Or.inl ht.symm
  · rw [crash_lines_touches _ _ _ e he] at ht; exact absurd ht (by simp)
  · simp [Event.touches] at ht; exact Or.inr ht.symm
  · rw [crash_lines_touches _ _ _ e he] at ht; exact absurd ht (by simp)

theorem cycle_stores_touches (a b r : Nat) (e : Event) (he : e ∈ cycle_stores a b)
    (ht : e.touches r = true) : r = a ∨ r = b := by
  simp only [cycle_stores, List.mem_cons, List.mem_singleton, List.not_mem_nil, or_false] at he
  rcases he with rfl | rfl | rfl | rfl | rfl | rfl <;> simp [Event.touches] at ht <;>
    simp [ht.symm]

theorem cycle_checks_no_unlock (a b v1 v2 : Nat) (e : Event) (he : e ∈ cycle_checks a b v1 v2) :
    e.is_unlock = false ∧ e.is_write = false := by
  simp only [cycle_checks, List.mem_append, List.mem_cons, List.mem_singleton,
    List.not_mem_nil, or_false] at he
  rcases he with ((((rfl | rfl) | he) | rfl) | he)
  · simp [Event.is_unlock, Event.is_write]
  · simp [Event.is_unlock, Event.is_write]
  · exact ⟨(crash_lines_flags _ _ e he).2.1, (crash_lines_flags _ _ e he).1⟩
  · simp [Event.is_unlock, Event.is_write]
  · exact ⟨(crash_lines_flags _ _ e he).2.1, (crash_lines_flags _ _ e he).1⟩

theorem cycle_stores_no_unlock (a b : Nat) (e : Event) (he : e ∈ cycle_stores a b) :
    e.is_unlock = false ∧ e.is_read = false := by
  simp only [cycle_stores, List.mem_cons, List.mem_singleton, List.not_mem_nil, or_false] at he
  rcases he with rfl | rfl | rfl | rfl | rfl | rfl <;> simp [Event.is_unlock, Event.is_read]

/-- Whatever a schedule reaches from a reachable state is reachable. -/
theorem exec_reachable (sched : List Tid) (s : State) (h : Reachable s) :
    Reachable (exec sched s).2 := by
  induction sched generalizing s with
  | nil => exact h
  | cons t ts ih =>
      cases hs : step t s with
      | none => simpa [exec, hs] using ih s h
      | some r =>
          obtain ⟨ev, s1⟩ := r
          simpa [exec, hs] using ih s1 (Reachable.step t s s1 ev h hs)

theorem main_events_append (a b : List (Tid × Event)) :
    main_events (a ++ b) = main_events a ++ main_events b := by
  simp [main_events]

theorem main_events_lane (i : Fin 4) (ev : List Event) :
    main_events (ev.map fun e => (Tid.lane i, e)) = [] := by
  simp [main_events, List.filter_eq_nil_iff]

theorem main_events_main (ev : List Event) :
    main_events (ev.map fun e => (Tid.main, e)) = ev := by
  induction ev with
  | nil => rfl
  | cons e es ih =>
      simp only [main_events, List.map_cons, List.filter_cons, decide_True, ite_true] at ih ⊢
      rw [ih]

/-- The events of `main` in any execution are its instructions in program order. -/
theorem exec_main_events (sched : List Tid) (s : State) :
    main_code.take s.mainPc ++ main_events (exec sched s).1
      = main_code.take (exec sched s).2.mainPc := by
  induction sched generalizing s with
  | nil => simp [exec, main_events]
  | cons t ts ih =>
      cases hs : step t s with
      | none => simpa [exec, hs] using ih s
      | some r =>
          obtain ⟨ev, s1⟩ := r
          simp only [exec, hs, main_events_append]
          rw [← ih s1, ← List.append_assoc]
          congr 1
          cases t with
          | main =>
              simp only [step, main_step, List.get?_eq_getElem?] at hs
              cases hop : main_code[s.mainPc]? with
              | none => simp [hop] at hs
              | some op =>
                  simp only [hop, Option.map_eq_some', Prod.mk.injEq] at hs
                  obtain ⟨s2, -, rfl, rfl⟩ := hs
                  rw [main_events_main, List.take_succ, hop]
                  rfl
          | lane i =>
              simp only [step, Option.map_eq_some', Prod.mk.injEq] at hs
              obtain ⟨r, -, rfl, rfl⟩ := hs
              rw [main_events_lane]
              simp

theorem unlock_fin_mem_take (k : Nat) (hk : k ≤ 22) :
    Event.unlock_fin ∈ main_code.take k ↔ 11 < k := by
  interval_cases k <;> decide

theorem create_mem_take (k : Nat) (hk : k ≤ 22) (i : Fin 4) :
    Event.create i.val ∈ main_code.take k ↔ 6 + i.val < k := by
  interval_cases k <;> revert i <;> decide

theorem join_mem_take (k : Nat) (hk : k ≤ 22) (i : Fin 4) :
    Event.join i.val ∈ main_code.take k ↔ 12 + i.val < k := by
  interval_cases k <;> revert i <;> decide

/-- While a lane owns `mutex[r]` and has no mark on `intersection[r]`, the entry is empty. -/
theorem Inv.board_zero {s : State} (h : Inv s) (i : Fin 4) (r : Nat)
    (ho : owns (req i) (s.lanePc i) r = true) (hm : marks (req i) (s.lanePc i) r = false) :
    s.mem.intersection r = 0 := by
  apply h.board_empty r
  intro j
  rcases eq_or_ne j i with rfl | hj
  · exact hm
  · by_contra hc
    simp only [Bool.not_eq_false] at hc
    exact hj (h.excl (marks_owns _ _ _ hc) ho)

theorem main_code_no_crash : ∀ e ∈ main_code, e.is_crash = false := by decide

theorem owns_imp_owns_first (arg : Nat × Nat) (pc : PC) (r : Nat)
    (h : owns arg pc r = true) : owns_first pc = true := by
  cases pc <;> simp_all [owns, owns_first, owns_second]

/-- While some lane is between its creation and its return, every resource mutex is either
free or owned by a lane. -/
theorem Inv.mutex_cases {s : State} (h : Inv s) (i : Fin 4)
    (h1 : s.lanePc i ≠ .not_started) (h2 : s.lanePc i ≠ .returned) (r : Nat) (hr : r < 4) :
    s.mem.mutex r = .unlocked ∨ ∃ j : Fin 4, s.mem.mutex r = .locked (.lane j) := by
  have hs := h.started i
  have hj := h.joined i
  have hu := h.mutex_uninit r
  have hd := h.mutex_destroyed r
  have hi := i.isLt
  have hk : 6 + i.val < s.mainPc := by
    by_contra hc
    exact h1 (hs.2 (by omega))
  have hk2 : s.mainPc ≤ 12 + i.val := by
    by_contra hc
    exact h2 (hj (by omega))
  cases hc : s.mem.mutex r with
  | uninit => rw [hc] at hu; simp only [true_iff] at hu; omega
  | unlocked => exact Or.inl rfl
  | locked t =>
      cases t with
      | main => exact absurd hc (h.mutex_main r)
      | lane j => exact Or.inr ⟨j, rfl⟩
  | destroyed => rw [hc] at hd; simp only [true_iff] at hd; omega

/-- A lane that owns a mutex can step, unless it is at its second lock and that mutex is
taken. -/
theorem Inv.owner_steps {s : State} (h : Inv s) (i : Fin 4)
    (ho : owns_first (s.lanePc i) = true)
    (hfree : s.lanePc i = .lock_second → s.mem.mutex (second_lock (req i)) = .unlocked) :
    (step (.lane i) s).isSome = true := by
  have hm1 := h.mutex_lane (first_lock (req i)) i
  have hm2 := h.mutex_lane (second_lock (req i)) i
  simp only [step, Option.isSome_map']
  cases hpc : s.lanePc i <;> rw [hpc] at ho hm1 hm2 <;>
    simp [owns_first] at ho <;>
    simp [lane_fn, pthread_mutex_lock, pthread_mutex_unlock]
  case lock_second =>
    have := hfree hpc
    simp only [second_lock] at this
    rw [this]
    rfl
  case unlock_first =>
    have := hm2.2 (by simp [owns, owns_second])
    simp only [second_lock] at this
    rw [this]; simp
  case unlock_second =>
    have := hm1.2 (by simp [owns, owns_first])
    simp only [first_lock] at this
    rw [this]; simp

/-- A lane that owns `mutex[r]` and is waiting at a lock statement waits for a mutex of higher
index. -/
theorem Inv.wanted_gt {s : State} (h : Inv s) (i : Fin 4) (r r1 : Nat)
    (ho : s.mem.mutex r = .locked (.lane i)) (hw : wanted s i = some r1) :
    s.lanePc i = .lock_second ∧ r = first_lock (req i) ∧ r1 = second_lock (req i) ∧ r < r1 := by
  have hm := (h.mutex_lane r i).1 ho
  have hlt := first_lock_lt_second_lock i
  unfold wanted at hw
  cases hpc : s.lanePc i <;> rw [hpc] at hw hm <;> simp at hw
  case lock_first => simp [owns, owns_first, owns_second] at hm
  case lock_second =>
    simp [owns, owns_first, owns_second] at hm
    subst hm
    subst hw
    exact ⟨rfl, rfl, rfl, hlt⟩

/-- From any mutex owned by a lane one finds, going up the indices, an owner that can step. -/
theorem Inv.progress {s : State} (h : Inv s) :
    ∀ (n r : Nat) (j : Fin 4), 4 ≤ r + n → s.mem.mutex r = .locked (.lane j) →
      ∃ j1 : Fin 4, holds_mutex s j1 ∧ (step (.lane j1) s).isSome = true := by
  intro n
  induction n with
  | zero =>
      intro r j hr hm
      have := (h.mutex_uninit r).2 (Or.inl (by omega))
      rw [hm] at this
      exact absurd this (by simp)
  | succ n ih =>
      intro r j hr hm
      have ho := (h.mutex_lane r j).1 hm
      have hof := owns_imp_owns_first _ _ _ ho
      by_cases hb : s.lanePc j = .lock_second ∧
          s.mem.mutex (second_lock (req j)) ≠ .unlocked
      · obtain ⟨hpc, hne⟩ := hb
        have hw : wanted s j = some (second_lock (req j)) := by simp [wanted, hpc]
        obtain ⟨-, -, -, hlt⟩ := h.wanted_gt j r _ hm hw
        rcases h.mutex_cases j (by rw [hpc]; simp) (by rw [hpc]; simp) _ (second_lock_lt j)
          with hfree | ⟨j2, hj2⟩
        · exact absurd hfree hne
        · exact ih _ j2 (by omega) hj2
      · refine ⟨j, ⟨r, hm⟩, h.owner_steps j hof ?_⟩
        intro hpc
        by_contra hne
        exact hb ⟨hpc, hne⟩

theorem create_get (k : Nat) (hk : k ≤ 22) (i : Nat) :
    main_code.get? k = some (.create i) ↔ (i < 4 ∧ k = 6 + i) := by
  interval_cases k <;> simp [main_code, List.range, List.range.loop] <;> omega

theorem crash_lines_resource (id v : Nat) : ∀ e ∈ crash_lines id v, e.resource = none := by
  unfold crash_lines
  split_ifs <;> simp [Event.resource]

/-- Every resource a lane step names is one of the two indices of its descriptor. -/
theorem lane_fn_resources {t : Tid} {a b : Nat} {pc pc1 : PC} {m m1 : Shared}
    {ev : List Event} (h : lane_fn t (a, b) pc m = some (ev, pc1, m1)) :
    ∀ e ∈ ev, ∀ r, e.resource = some r → r = a ∨ r = b := by
  have hmin : min a b = a ∨ min a b = b := by omega
  have hmax : max a b = a ∨ max a b = b := by omega
  have hev := lane_fn_events h
  intro e he r hr
  cases pc <;> dsimp only at hev
  case check1 =>
    obtain ⟨rfl, -⟩ := hev
    simp only [List.mem_cons] at he
    rcases he with rfl | he
    · simp [Event.resource] at hr; exact Or.inl hr.symm
    · rw [crash_lines_resource _ _ e he] at hr; exact absurd hr (by simp)
  case check2 =>
    obtain ⟨rfl, -⟩ := hev
    simp only [List.mem_cons] at he
    rcases he with rfl | he
    · simp [Event.resource] at hr; exact Or.inr hr.symm
    · rw [crash_lines_resource _ _ e he] at hr; exact absurd hr (by simp)
  case trylock =>
    obtain ⟨c, rfl, -⟩ := hev
    simp only [List.mem_singleton] at he
    subst he
    simp [Event.resource] at hr
  all_goals first
    | exact absurd hev id
    | (obtain ⟨rfl, -⟩ := hev
       simp only [List.mem_singleton] at he
       subst he
       first
         | (simp [Event.resource] at hr; done)
         | (simp only [Event.resource, Option.some.injEq] at hr
            subst hr
            first | exact hmin | exact hmax | exact Or.inl rfl | exact Or.inr rfl))

/-- C1 (ordering invariant of `lane_fn`). For a descriptor `(req1, req2)` of two distinct
indices below 4, every completed pass through the loop body, whatever the other threads do
between its statements, locks `min req1 req2` and then `max req1 req2`, and unlocks
`max req1 req2` and then `min req1 req2`, both locks coming before both unlocks; and a lane
that finds its two mutexes free does complete such a pass. -/
theorem lane_fn_lock_order (t : Tid) (req1 req2 : Nat) (hne : req1 ≠ req2)
    (_hr1 : req1 < 4) (_hr2 : req2 < 4) :
    (∀ (ms : List Shared) (tr : List Event) (pc : PC), ms.length = 15 →
        lane_trace t (req1, req2) ms .sleep = some (tr, pc) →
        tr.filter Event.is_lock = [.lock (min req1 req2), .lock (max req1 req2)] ∧
        tr.filter Event.is_unlock = [.unlock (max req1 req2), .unlock (min req1 req2)] ∧
        tr.filter (fun e => e.is_lock || e.is_unlock)
          = [.lock (min req1 req2), .lock (max req1 req2),
             .unlock (max req1 req2), .unlock (min req1 req2)]) ∧
    (∀ m : Shared, m.mutex req1 = .unlocked → m.mutex req2 = .unlocked →
        ∃ tr m1, lane_run t (req1, req2) 15 .sleep m = some (tr, .trylock, m1) ∧
          tr.filter (fun e => e.is_lock || e.is_unlock)
            = [.lock (min req1 req2), .lock (max req1 req2),
               .unlock (max req1 req2), .unlock (min req1 req2)]) := by
  constructor
  · intro ms tr pc hlen h
    obtain ⟨-, v1, v2, rfl⟩ := lane_trace_cycle t req1 req2 ms hlen tr pc h
    exact ⟨cycle_events_locks _ _ _ _, cycle_events_unlocks _ _ _ _,
      cycle_events_lock_unlock _ _ _ _⟩
  · intro m hm1 hm2
    obtain ⟨⟨tr, pc, m1⟩, hrun, rfl, rfl, -⟩ := lane_run_cycle t req1 req2 hne m hm1 hm2
    exact ⟨_, m1, hrun, cycle_events_lock_unlock _ _ _ _⟩

/-- Lane 3 lists its indices as `(3, 0)`: it locks 0 then 3 and unlocks 3 then 0. -/
theorem lane_fn_lock_order_witness :
    ∃ tr m1, lane_run (.lane 3) (3, 0) 15 .sleep (free_globals fun _ => 0)
        = some (tr, .trylock, m1) ∧
      tr.filter (fun e => e.is_lock || e.is_unlock) = [.lock 0, .lock 3, .unlock 3, .unlock 0] :=
  (lane_fn_lock_order (.lane 3) 3 0 (by decide) (by decide) (by decide)).2
    (free_globals fun _ => 0) rfl rfl

/-- C7 (lock discipline for the board). In the events of every completed pass through the
loop body of `lane_fn`, for a descriptor of two distinct indices below 4 and whatever the
other threads do between the statements: every read or write of `intersection[r]` lies
strictly between the lane's `lock r` and its `unlock r`; all board reads (the two checks) come
before all board writes (the marks and the clears); and all board writes come before the first
unlock. -/
theorem lane_fn_lock_discipline (t : Tid) (req1 req2 : Nat) (hne : req1 ≠ req2)
    (_hr1 : req1 < 4) (_hr2 : req2 < 4) (ms : List Shared) (tr : List Event) (pc : PC)
    (hlen : ms.length = 15) (h : lane_trace t (req1, req2) ms .sleep = some (tr, pc)) :
    (∀ r, (∃ e ∈ tr, e.touches r = true) →
      ∃ pre mid post, tr = pre ++ Event.lock r :: (mid ++ Event.unlock r :: post) ∧
        (∀ e ∈ pre, e.touches r = false) ∧ (∀ e ∈ post, e.touches r = false) ∧
        Event.unlock r ∉ mid) ∧
    (∃ front back, tr = front ++ back ∧ (front.filter Event.is_read).length = 2 ∧
      (∀ e ∈ front, e.is_write = false) ∧ (∀ e ∈ back, e.is_read = false) ∧
      (back.filter Event.is_write).length = 4) ∧
    (∃ front back, tr = front ++ back ∧ (front.filter Event.is_write).length = 4 ∧
      (∀ e ∈ front, e.is_unlock = false) ∧ (∀ e ∈ back, e.is_write = false) ∧
      (back.filter Event.is_unlock).length = 2) := by
  obtain ⟨-, v1, v2, rfl⟩ := lane_trace_cycle t req1 req2 ms hlen tr pc h
  have hmm : min req1 req2 ≠ max req1 req2 := by omega
  refine ⟨?_, ?_, ?_⟩
  · rintro r ⟨e, he, ht⟩
    have hr : r = min req1 req2 ∨ r = max req1 req2 := by
      have hab : r = req1 ∨ r = req2 := by
        simp only [cycle_events, List.mem_append, List.mem_cons, List.mem_singleton,
          List.not_mem_nil, or_false] at he
        rcases he with (((rfl | rfl | rfl | rfl) | he) | he) | (rfl | rfl)
        · simp [Event.touches] at ht
        · simp [Event.touches] at ht
        · simp [Event.touches] at ht
        · simp [Event.touches] at ht
        · exact cycle_checks_touches _ _ _ _ _ e he ht
        · exact cycle_stores_touches _ _ _ e he ht
        · simp [Event.touches] at ht
        · simp [Event.touches] at ht
      rcases Nat.le_total req1 req2 with hle | hle <;> rcases hab with rfl | rfl <;>
        simp [hle]
    rcases hr with rfl | rfl
    · refine ⟨[.usleep, .print_entering req1 req1],
        .lock (max req1 req2) :: (cycle_checks req1 req2 v1 v2 ++ cycle_stores req1 req2 ++
          [.unlock (max req1 req2)]), [], ?_, ?_, ?_, ?_⟩
      · simp [cycle_events]
      · simp [Event.touches]
      · simp
      · intro hmem
        simp only [List.mem_append, List.mem_cons, List.mem_singleton, List.not_mem_nil,
          or_false, reduceCtorEq, false_or, Event.unlock.injEq] at hmem
        rcases hmem with (hmem | hmem) | hmem
        · exact absurd (cycle_checks_no_unlock _ _ _ _ _ hmem).1 (by simp [Event.is_unlock])
        · exact absurd (cycle_stores_no_unlock _ _ _ hmem).1 (by simp [Event.is_unlock])
        · exact hmm hmem
    · refine ⟨[.usleep, .print_entering req1 req1, .lock (min req1 req2)],
        cycle_checks req1 req2 v1 v2 ++ cycle_stores req1 req2, [.unlock (min req1 req2)],
        ?_, ?_, ?_, ?_⟩
      · simp [cycle_events]
      · simp [Event.touches]
      · simp [Event.touches]
      · intro hmem
        simp only [List.mem_append] at hmem
        rcases hmem with hmem | hmem
        · exact absurd (cycle_checks_no_unlock _ _ _ _ _ hmem).1 (by simp [Event.is_unlock])
        · exact absurd (cycle_stores_no_unlock _ _ _ hmem).1 (by simp [Event.is_unlock])
  · refine ⟨[.usleep, .print_entering req1 req1, .lock (min req1 req2), .lock (max req1 req2)]
        ++ cycle_checks req1 req2 v1 v2,
      cycle_stores req1 req2 ++ [.unlock (max req1 req2), .unlock (min req1 req2)],
      ?_, ?_, ?_, ?_, ?_⟩
    · simp [cycle_events]
    · simp [cycle_checks, List.filter_cons, Event.is_read, crash_lines_filter]
    · intro e he
      simp only [List.mem_append, List.mem_cons, List.mem_singleton, List.not_mem_nil,
        or_false] at he
      rcases he with (rfl | rfl | rfl | rfl) | he
      · rfl
      · rfl
      · rfl
      · rfl
      · exact (cycle_checks_no_unlock _ _ _ _ _ he).2
    · intro e he
      simp only [List.mem_append, List.mem_cons, List.mem_singleton, List.not_mem_nil,
        or_false] at he
      rcases he with he | (rfl | rfl)
      · exact (cycle_stores_no_unlock _ _ _ he).2
      · rfl
      · rfl
    · simp [cycle_stores, List.filter_cons, Event.is_write]
  · refine ⟨[.usleep, .print_entering req1 req1, .lock (min req1 req2), .lock (max req1 req2)]
        ++ cycle_checks req1 req2 v1 v2 ++ cycle_stores req1 req2,
      [.unlock (max req1 req2), .unlock (min req1 req2)], ?_, ?_, ?_, ?_, ?_⟩
    · simp [cycle_events]
    · simp [cycle_checks, cycle_stores, List.filter_cons, Event.is_write, crash_lines_filter]
    · intro e he
      simp only [List.mem_append, List.mem_cons, List.mem_singleton, List.not_mem_nil,
        or_false] at he
      rcases he with ((rfl | rfl | rfl | rfl) | he) | he
      · rfl
      · rfl
      · rfl
      · rfl
      · exact (cycle_checks_no_unlock _ _ _ _ _ he).1
      · exact (cycle_stores_no_unlock _ _ _ he).1
    · simp [Event.is_write]
    · simp [List.filter_cons, Event.is_unlock]

/-- Lane 3, descriptor `(3, 0)`, running alone on free mutexes and an empty board: its two
board reads come before its four board writes. -/
theorem lane_fn_lock_discipline_witness :
    ∃ front back, cycle_events 3 0 0 0 = front ++ back ∧
      (front.filter Event.is_read).length = 2 ∧
      (∀ e ∈ front, e.is_write = false) ∧ (∀ e ∈ back, e.is_read = false) ∧
      (back.filter Event.is_write).length = 4 :=
  (lane_fn_lock_discipline (.lane 3) 3 0 (by decide) (by decide) (by decide)
    (lane_run_globals (.lane 3) (3, 0) 15 .sleep (free_globals fun _ => 0))
    (cycle_events 3 0 0 0) .trylock rfl rfl).2.1

/-- C5, counterexample. Lane 1 (`id = 1`) checks `intersection[1]` while that entry holds its
own identity 1: the check prints "1 crashed into 1", although the occupant does not differ
from `id`. -/
theorem check_reports_own_identity :
    (lane_fn (.lane 1) (req 1) .check1
        (owned_globals (.lane 1) fun r => if r = 1 then 1 else 0)).map (fun r => r.1)
      = some [.read 1 1, .print_crashed 1 1] ∧
    ¬ ((owned_globals (.lane 1) fun r => if r = 1 then 1 else 0).intersection (req 1).1 ≠ 0 ∧
       (owned_globals (.lane 1) fun r => if r = 1 then 1 else 0).intersection (req 1).1
         ≠ (req 1).1) := by
  constructor
  · rfl
  · simp [owned_globals, req]

/-- C5, as the code has it. The check of `intersection[r]` (`r = req1` at `check1`, `r = req2`
at `check2`) always steps, prints a "crashed into" line exactly when `intersection[r]` is
non-zero, whether or not the entry equals `id`; the line names `id` and the occupant
`intersection[r]`; the globals are unchanged and control goes on to the next check or to the
marks; and a lane that owns its two mutexes runs from the statement before the checks through
the checks, both marks, both clears and both unlocks to the loop test, whatever the checks
found. -/
theorem lane_fn_check (t : Tid) (arg : Nat × Nat) (m : Shared) :
    (∃ ev, lane_fn t arg .check1 m = some (ev, .check2, m) ∧
      ((∃ e ∈ ev, e.is_crash = true) ↔ m.intersection arg.1 ≠ 0) ∧
      (∀ e ∈ ev, e.is_crash = true → e = .print_crashed arg.1 (m.intersection arg.1))) ∧
    (∃ ev, lane_fn t arg .check2 m = some (ev, .mark1, m) ∧
      ((∃ e ∈ ev, e.is_crash = true) ↔ m.intersection arg.2 ≠ 0) ∧
      (∀ e ∈ ev, e.is_crash = true → e = .print_crashed arg.1 (m.intersection arg.2))) ∧
    (arg.1 ≠ arg.2 → m.mutex arg.1 = .locked t → m.mutex arg.2 = .locked t →
      ∃ m1, lane_run t arg 11 .inside m
        = some (cycle_checks arg.1 arg.2 (m.intersection arg.1) (m.intersection arg.2) ++
            cycle_stores arg.1 arg.2 ++ [.unlock (max arg.1 arg.2), .unlock (min arg.1 arg.2)],
          .trylock, m1)) := by
  refine ⟨⟨_, rfl, ?_, ?_⟩, ⟨_, rfl, ?_, ?_⟩, ?_⟩
  · by_cases h : m.intersection arg.1 = 0 <;> simp [h, Event.is_crash]
  · by_cases h : m.intersection arg.1 = 0 <;> simp [h, Event.is_crash]
  · by_cases h : m.intersection arg.2 = 0 <;> simp [h, Event.is_crash]
  · by_cases h : m.intersection arg.2 = 0 <;> simp [h, Event.is_crash]
  · intro hne h1 h2
    obtain ⟨⟨tr, pc, m1⟩, hrun, rfl, rfl⟩ := lane_run_inside t arg.1 arg.2 hne m h1 h2
    exact ⟨m1, hrun⟩

/-- Lane 1 owns its mutexes and finds its own identity 1 in `intersection[1]`: the line
"1 crashed into 1" is printed and the pass goes on through the marks, the clears and the
unlocks. -/
theorem lane_fn_check_witness :
    ∃ m1, lane_run (.lane 1) (req 1) 11 .inside
        (owned_globals (.lane 1) fun r => if r = 1 then 1 else 0)
      = some ([.print_in 1 1 2, .read 1 1, .print_crashed 1 1, .read 2 0, .write 1 1,
          .write 2 1, .usleep, .print_out 1 1 2, .write 1 0, .write 2 0, .unlock 2, .unlock 1],
        .trylock, m1) :=
  (lane_fn_check (.lane 1) (req 1)
    (owned_globals (.lane 1) fun r => if r = 1 then 1 else 0)).2.2 (by decide) rfl rfl

/-- C8 (fixed topology). `main` has exactly the four creates 0..3; in every reachable state
lane `i` has been started exactly when `main` has executed `create i`, that instruction always
steps and starts lane `i` and no other lane, and no other step of any thread starts a lane;
thread `i` runs `lane_fn` on the descriptor `req[i] = (i, (i+1) mod 4)`, so every mutex or
board entry a lane step names is `i` or `(i+1) mod 4`, and in the complete run each of the
four lanes runs one pass on exactly those two indices and returns; every resource index
below 4 is required by exactly two lanes; two distinct lanes share at most one resource. -/
theorem main_topology :
    main_code.filter Event.is_create = [.create 0, .create 1, .create 2, .create 3] ∧
    (∀ i : Fin 4, req i = (i.val, (i.val + 1) % 4)) ∧
    (∀ (i : Fin 4) (s : State), step (.lane i) s =
      (lane_fn (.lane i) (i.val, (i.val + 1) % 4) (s.lanePc i) s.mem).map fun r =>
        (r.1, { s with lanePc := Function.update s.lanePc i r.2.1, mem := r.2.2 })) ∧
    (∀ r : Fin 4,
      (Finset.univ.filter fun i : Fin 4 => (req i).1 = r.val ∨ (req i).2 = r.val).card = 2) ∧
    (∀ i j : Fin 4, i ≠ j →
      (({(req i).1, (req i).2} : Finset Nat) ∩ {(req j).1, (req j).2}).card ≤ 1) ∧
    (∀ s, Reachable s →
      (∀ i : Fin 4, Event.create i.val ∈ main_code.take s.mainPc ↔ s.lanePc i ≠ .not_started) ∧
      (∀ k, main_code.get? s.mainPc = some (.create k) →
        ∃ (hk : k < 4) (s1 : State), step .main s = some ([.create k], s1) ∧
          s.lanePc ⟨k, hk⟩ = .not_started ∧ s1.lanePc ⟨k, hk⟩ = .sleep ∧
          ∀ j : Fin 4, j ≠ ⟨k, hk⟩ → s1.lanePc j = s.lanePc j) ∧
      (∀ (t : Tid) (ev : List Event) (s1 : State), step t s = some (ev, s1) →
        ∀ j : Fin 4, s.lanePc j = .not_started → s1.lanePc j ≠ .not_started →
          t = .main ∧ ev = [.create j.val]) ∧
      (∀ (i : Fin 4) (ev : List Event) (s1 : State), step (.lane i) s = some (ev, s1) →
        ∀ e ∈ ev, ∀ r, e.resource = some r → r = i.val ∨ r = (i.val + 1) % 4)) ∧
    (∀ i : Fin 4, (exec full_schedule init).2.lanePc i = .returned ∧
      lane_events i (exec full_schedule init).1
        = cycle_events i.val ((i.val + 1) % 4) 0 0 ++ [.trylock_fin 0, .unlock_fin]) := by
  refine ⟨by decide, req_val, ?_, by decide, by decide, ?_, by decide⟩
  · intro i s
    rw [← req_val]
    rfl
  · intro s hs
    have h := inv_of_reachable s hs
    have hk := h.pc_le
    refine ⟨?_, ?_, ?_, ?_⟩
    · intro i
      rw [create_mem_take _ hk, Ne, h.started i]
      omega
    · intro k hget
      obtain ⟨hk4, hpc⟩ := (create_get _ hk k).1 hget
      have hns : s.lanePc ⟨k, hk4⟩ = .not_started := (h.started ⟨k, hk4⟩).2 (by simp [hpc])
      refine ⟨hk4, { s with lanePc := Function.update s.lanePc ⟨k, hk4⟩ .sleep,
                            mainPc := s.mainPc + 1 }, ?_, hns, ?_, ?_⟩
      · simp only [step, main_step, hget, main_op, hk4, hns, dite_true, ite_true,
          Option.map_some']
      · simp
      · intro j hj
        simp [Function.update_noteq hj]
    · intro t ev s1 hstep j hj hj1
      cases t with
      | main =>
          refine ⟨rfl, ?_⟩
          simp only [step, main_step, List.get?_eq_getElem?] at hstep
          cases hop : main_code[s.mainPc]? with
          | none => simp [hop] at hstep
          | some op =>
              simp only [hop, Option.map_eq_some', Prod.mk.injEq] at hstep
              obtain ⟨s2, hmo, rfl, rfl⟩ := hstep
              dsimp only at hj1
              cases op <;> simp only [main_op, Option.map_eq_some', reduceCtorEq,
                Option.some.injEq] at hmo
              case create i =>
                split_ifs at hmo with h4 hn
                simp only [Option.some.injEq] at hmo
                subst hmo
                dsimp only at hj1
                by_cases hji : j = ⟨i, h4⟩
                · subst hji; rfl
                · rw [Function.update_noteq hji] at hj1
                  exact absurd hj hj1
              all_goals first
                | exact absurd hmo id
                | (subst hmo; exact absurd hj hj1)
                | (obtain ⟨x, -, rfl⟩ := hmo; exact absurd hj hj1)
                | (split_ifs at hmo
                   simp only [Option.some.injEq] at hmo
                   subst hmo
                   exact absurd hj hj1)
      | lane i =>
          simp only [step, Option.map_eq_some', Prod.mk.injEq] at hstep
          obtain ⟨⟨ev1, pc1, m1⟩, hl, rfl, rfl⟩ := hstep
          dsimp only at hj1
          by_cases hji : j = i
          · subst hji
            rw [hj] at hl
            simp [lane_fn] at hl
          · rw [Function.update_noteq hji] at hj1
            exact absurd hj hj1
    · intro i ev s1 hstep e he r hr
      simp only [step, Option.map_eq_some', Prod.mk.injEq] at hstep
      obtain ⟨⟨ev1, pc1, m1⟩, hl, rfl, -⟩ := hstep
      have := lane_fn_resources (a := (req i).1) (b := (req i).2) hl e he r hr
      rw [req_val] at this
      exact this

/-- C9 (controller ordering). The instructions of `main` are, in order: initialise `fin` and
the four resource mutexes, lock `fin`, create the four lane threads, sleep, unlock `fin`, join
the four threads, destroy the four resource mutexes and `fin`, return; `fin` is unlocked by
`main` exactly once; in every execution the events of `main` are a prefix of that list, and
the complete run exhibits all of it; in every reachable state in which `main` has unlocked
`fin` all four lanes have been created, and in every reachable state in which a resource mutex
or `fin` is destroyed all four lanes have returned and have been joined. -/
theorem main_order :
    main_code = [.init_fin, .init_mutex 0, .init_mutex 1, .init_mutex 2, .init_mutex 3,
      .lock_fin, .create 0, .create 1, .create 2, .create 3, .sleep 3, .unlock_fin,
      .join 0, .join 1, .join 2, .join 3, .destroy_mutex 0, .destroy_mutex 1,
      .destroy_mutex 2, .destroy_mutex 3, .destroy_fin, .ret] ∧
    main_code.count .unlock_fin = 1 ∧
    (∀ sched, main_events (exec sched init).1 = main_code.take (exec sched init).2.mainPc) ∧
    main_events (exec full_schedule init).1 = main_code ∧
    (∀ s, Reachable s →
      (Event.unlock_fin ∈ main_code.take s.mainPc →
        ∀ i : Fin 4, Event.create i.val ∈ main_code.take s.mainPc ∧
          s.lanePc i ≠ .not_started) ∧
      ((∃ r, s.mem.mutex r = .destroyed) ∨ s.mem.fin = .destroyed →
        ∀ i : Fin 4, Event.join i.val ∈ main_code.take s.mainPc ∧
          s.lanePc i = .returned)) := by
  refine ⟨by decide, by decide, ?_, by decide, ?_⟩
  · intro sched
    have := exec_main_events sched init
    simpa [init] using this
  · intro s hs
    have h := inv_of_reachable s hs
    have hk := h.pc_le
    constructor
    · intro hu i
      rw [unlock_fin_mem_take _ hk] at hu
      rw [create_mem_take _ hk]
      have hi := i.isLt
      refine ⟨by omega, ?_⟩
      rw [Ne, h.started i]
      omega
    · intro hd i
      have hi := i.isLt
      have h16 : 16 < s.mainPc := by
        rcases hd with ⟨r, hr⟩ | hf
        · have := (h.mutex_destroyed r).1 hr
          omega
        · have := h.fin_destroyed.1 hf
          omega
      rw [join_mem_take _ hk]
      exact ⟨by omega, h.joined i (by omega)⟩

/-- C3 (no collision under correct ordering). In every reachable state, a lane that is at one
of its two collision checks finds both `intersection[req1]` and `intersection[req2]` equal
to 0, and no step of any thread from a reachable state emits a "crashed into" line. -/
theorem no_collision (s : State) (h : Reachable s) :
    (∀ i : Fin 4, s.lanePc i = .check1 ∨ s.lanePc i = .check2 →
      s.mem.intersection (req i).1 = 0 ∧ s.mem.intersection (req i).2 = 0) ∧
    (∀ t ev s1, step t s = some (ev, s1) → ∀ e ∈ ev, e.is_crash = false) := by
  have hinv := inv_of_reachable s h
  have key : ∀ i : Fin 4, s.lanePc i = .check1 ∨ s.lanePc i = .check2 →
      s.mem.intersection (req i).1 = 0 ∧ s.mem.intersection (req i).2 = 0 := by
    intro i hpc
    have hos : owns_second (s.lanePc i) = true := by
      rcases hpc with e | e <;> rw [e] <;> rfl
    have hm : ∀ r, marks (req i) (s.lanePc i) r = false := by
      intro r
      rcases hpc with e | e <;> rw [e] <;> simp [marks, marked1, marked2]
    exact ⟨hinv.board_zero i _ (owns_req_fst i _ hos) (hm _),
      hinv.board_zero i _ (owns_req_snd i _ hos) (hm _)⟩
  refine ⟨key, ?_⟩
  intro t ev s1 hs e he
  cases t with
  | main =>
      simp only [step, main_step, List.get?_eq_getElem?] at hs
      cases hop : main_code[s.mainPc]? with
      | none => simp [hop] at hs
      | some op =>
          simp only [hop, Option.map_eq_some', Prod.mk.injEq] at hs
          obtain ⟨s2, -, rfl, -⟩ := hs
          simp only [List.mem_singleton] at he
          subst he
          exact main_code_no_crash _ (List.getElem?_mem hop)
  | lane i =>
      simp only [step, Option.map_eq_some', Prod.mk.injEq] at hs
      obtain ⟨⟨ev1, pc1, m1⟩, hl, rfl, -⟩ := hs
      have hkey := key i
      generalize s.lanePc i = q at hl hkey
      have hev := lane_fn_events (a := (req i).1) (b := (req i).2) hl
      cases q <;> dsimp only at hev
      case check1 =>
        rw [(hkey (Or.inl rfl)).1] at hev
        obtain ⟨rfl, -⟩ := hev
        simp [crash_lines] at he
        subst he; rfl
      case check2 =>
        rw [(hkey (Or.inr rfl)).2] at hev
        obtain ⟨rfl, -⟩ := hev
        simp [crash_lines] at he
        subst he; rfl
      case trylock =>
        obtain ⟨c, rfl, -⟩ := hev
        simp at he
        subst he; rfl
      all_goals first
        | exact absurd hev id
        | (obtain ⟨rfl, -⟩ := hev
           simp only [List.mem_singleton] at he
           subst he
           rfl)

/-- In the state reached by `check_schedule`, lane 2 has marked and cleared entries 2 and 3,
and lane 1, at its first check, finds entries 1 and 2 empty. -/
theorem no_collision_witness :
    (exec check_schedule init).2.lanePc 1 = .check1 ∧
    (exec check_schedule init).2.mem.intersection (req 1).1 = 0 ∧
    (exec check_schedule init).2.mem.intersection (req 1).2 = 0 :=
  ⟨by decide, (no_collision _ (exec_reachable check_schedule init Reachable.init)).1 1
    (Or.inl (by decide))⟩

/-- C10 (clean terminal state). In every reachable state in which all four lanes have returned:
no resource mutex and not `fin` is owned by any thread, each resource mutex is free until
`main` destroys it, `fin` is free until `main` destroys it, every board entry is 0, and
whenever the next instruction of `main` is a destroy, the mutex it destroys is free. -/
theorem clean_terminal_state (s : State) (h : Reachable s)
    (hall : ∀ i : Fin 4, s.lanePc i = .returned) :
    (∀ r, r < 4 → s.mem.mutex r = if 16 + r < s.mainPc then .destroyed else .unlocked) ∧
    (s.mem.fin = if 21 ≤ s.mainPc then .destroyed else .unlocked) ∧
    (∀ r t, s.mem.mutex r ≠ .locked t) ∧ (∀ t, s.mem.fin ≠ .locked t) ∧
    (∀ r, s.mem.intersection r = 0) ∧
    (∀ r, main_code.get? s.mainPc = some (.destroy_mutex r) → s.mem.mutex r = .unlocked) ∧
    (main_code.get? s.mainPc = some .destroy_fin → s.mem.fin = .unlocked) := by
  have hinv := inv_of_reachable s h
  have h12 : 12 ≤ s.mainPc := hinv.late 0 (hall 0)
  have hk := hinv.pc_le
  have hmx : ∀ r t, s.mem.mutex r ≠ .locked t := by
    intro r t e
    cases t with
    | main => exact hinv.mutex_main r e
    | lane i =>
        have := (hinv.mutex_lane r i).1 e
        rw [hall i] at this
        simp [owns, owns_first, owns_second] at this
  have hfx : ∀ t, s.mem.fin ≠ .locked t := by
    intro t e
    cases t with
    | main => have := hinv.fin_main.1 e; omega
    | lane i =>
        have := (hinv.fin_lane i).1 e
        rw [hall i] at this
        exact absurd this (by simp)
  have hm : ∀ r, r < 4 →
      s.mem.mutex r = if 16 + r < s.mainPc then .destroyed else .unlocked := by
    intro r hr
    have hu := hinv.mutex_uninit r
    have hd := hinv.mutex_destroyed r
    cases hc : s.mem.mutex r with
    | uninit => rw [hc] at hu; simp only [true_iff] at hu; omega
    | unlocked =>
        rw [hc] at hd
        simp only [reduceCtorEq, false_iff, not_and, not_lt] at hd
        rw [if_neg (by have := hd hr; omega)]
    | locked t => exact absurd hc (hmx r t)
    | destroyed =>
        rw [hc] at hd
        simp only [true_iff] at hd
        rw [if_pos hd.2]
  have hf : s.mem.fin = if 21 ≤ s.mainPc then .destroyed else .unlocked := by
    have hu := hinv.fin_uninit
    have hd := hinv.fin_destroyed
    cases hc : s.mem.fin with
    | uninit => rw [hc] at hu; simp only [true_iff] at hu; omega
    | unlocked =>
        rw [hc] at hd
        simp only [reduceCtorEq, false_iff, not_le] at hd
        rw [if_neg (by omega)]
    | locked t => exact absurd hc (hfx t)
    | destroyed =>
        rw [hc] at hd
        simp only [true_iff] at hd
        rw [if_pos hd]
  refine ⟨hm, hf, hmx, hfx, ?_, ?_, ?_⟩
  · intro r
    apply hinv.board_empty r
    intro i
    rw [hall i]
    simp [marks, marked1, marked2]
  · intro r hget
    have hr : r < 4 ∧ s.mainPc = 16 + r := by
      generalize s.mainPc = k at hget hk
      interval_cases k <;> simp [main_code, List.range, List.range.loop] at hget <;> omega
    rw [hm r hr.1, if_neg (by omega)]
  · intro hget
    have hr : s.mainPc = 20 := by
      generalize s.mainPc = k at hget hk
      interval_cases k <;> simp [main_code, List.range, List.range.loop] at hget
      rfl
    rw [hf, if_neg (by omega)]

/-- After `terminal_schedule` all four lanes have returned; `fin` is free and the board is
empty. -/
theorem clean_terminal_state_witness :
    (∀ i : Fin 4, (exec terminal_schedule init).2.lanePc i = .returned) ∧
    (exec terminal_schedule init).2.mem.fin
      = (if 21 ≤ (exec terminal_schedule init).2.mainPc then .destroyed else .unlocked) ∧
    (∀ r, (exec terminal_schedule init).2.mem.intersection r = 0) :=
  ⟨by decide,
   (clean_terminal_state _ (exec_reachable terminal_schedule init Reachable.init)
      (by decide)).2.1,
   (clean_terminal_state _ (exec_reachable terminal_schedule init Reachable.init)
      (by decide)).2.2.2.2.1⟩

/-- C2 (no deadlock). In every reachable state of the four-lane interleaving model there is no
non-empty set of lanes each of which owns a resource mutex and waits for a mutex owned by
another lane of the set; and whenever some lane is blocked on a resource mutex, some lane that
owns a mutex can take a step. -/
theorem no_deadlock (s : State) (h : Reachable s) :
    (¬ ∃ S : Finset (Fin 4), S.Nonempty ∧
        ∀ i ∈ S, holds_mutex s i ∧ ∃ j ∈ S, j ≠ i ∧ waits_for s i j) ∧
    ((∃ i, blocked s i) →
      ∃ j : Fin 4, holds_mutex s j ∧ (step (.lane j) s).isSome = true) := by
  have hinv := inv_of_reachable s h
  constructor
  · rintro ⟨S, ⟨i0, hi0⟩, hS⟩
    have climb : ∀ (n r : Nat) (j : Fin 4), 4 ≤ r + n → j ∈ S →
        s.mem.mutex r = .locked (.lane j) → False := by
      intro n
      induction n with
      | zero =>
          intro r j hr _ hm
          have := (hinv.mutex_uninit r).2 (Or.inl (by omega))
          rw [hm] at this
          exact absurd this (by simp)
      | succ n ih =>
          intro r j hr hj hm
          obtain ⟨-, j2, hj2, -, r1, hw, hm2⟩ := hS j hj
          obtain ⟨-, -, -, hlt⟩ := hinv.wanted_gt j r r1 hm hw
          exact ih r1 j2 (by omega) hj2 hm2
    obtain ⟨⟨r, hr⟩, -⟩ := hS i0 hi0
    exact climb 4 r i0 (by omega) hi0 hr
  · rintro ⟨i, hpc, hstep⟩
    have hne : s.lanePc i ≠ .not_started ∧ s.lanePc i ≠ .returned := by
      rcases hpc with e | e <;> rw [e] <;> simp
    have hlocked : ∃ r, r < 4 ∧ s.mem.mutex r ≠ .unlocked := by
      simp only [step, Option.map_eq_none'] at hstep
      rcases hpc with e | e
      · refine ⟨first_lock (req i), first_lock_lt i, ?_⟩
        intro hfree
        simp only [first_lock] at hfree
        simp [e, lane_fn, hfree, pthread_mutex_lock] at hstep
      · refine ⟨second_lock (req i), second_lock_lt i, ?_⟩
        intro hfree
        simp only [second_lock] at hfree
        simp [e, lane_fn, hfree, pthread_mutex_lock] at hstep
    obtain ⟨r, hr, hnf⟩ := hlocked
    rcases hinv.mutex_cases i hne.1 hne.2 r hr with hfree | ⟨j, hj⟩
    · exact absurd hfree hnf
    · exact hinv.progress 4 r j (by omega) hj

/-- In the state reached by `contended_schedule` lane 0 owns `mutex[0]` and is blocked on
`mutex[1]`, which lane 1 owns; some owner can step. -/
theorem no_deadlock_witness :
    blocked (exec contended_schedule init).2 0 ∧
    ∃ j : Fin 4, holds_mutex (exec contended_schedule init).2 j ∧
      (step (.lane j) (exec contended_schedule init).2).isSome = true :=
  ⟨⟨Or.inr (by decide), rfl⟩,
   (no_deadlock _ (exec_reachable contended_schedule init Reachable.init)).2
     ⟨0, Or.inr (by decide), rfl⟩⟩

/-- Between its second mark and its first clear a lane finds its identity in both of its board
entries, and right after its second clear both entries are 0. -/
theorem board_holds_identity (s : State) (h : Reachable s) (i : Fin 4) :
    (s.lanePc i = .hold ∨ s.lanePc i = .leave ∨ s.lanePc i = .clear1 →
      s.mem.intersection (req i).1 = (req i).1 % 256 ∧
      s.mem.intersection (req i).2 = (req i).1 % 256) ∧
    (s.lanePc i = .unlock_first →
      s.mem.intersection (req i).1 = 0 ∧ s.mem.intersection (req i).2 = 0) := by
  have hinv := inv_of_reachable s h
  constructor
  · intro hpc
    constructor
    · apply hinv.board_marked
      rcases hpc with e | e | e <;> rw [e] <;> simp [marks, marked1]
    · apply hinv.board_marked
      rcases hpc with e | e | e <;> rw [e] <;> simp [marks, marked2]
  · intro hpc
    have hm : ∀ r, marks (req i) (s.lanePc i) r = false := by
      intro r; rw [hpc]; simp [marks, marked1, marked2]
    have hos : owns_second (s.lanePc i) = true := by rw [hpc]; rfl
    exact ⟨hinv.board_zero i _ (owns_req_fst i _ hos) (hm _),
      hinv.board_zero i _ (owns_req_snd i _ hos) (hm _)⟩

/-- C6, the code at lane 0. Lane 0 takes `id = req[0][0] = 0`; after both of its marks (it is
at the hold statement, its marks being the stores `intersection[0] = 0` and
`intersection[1] = 0`) both of its board entries hold 0, the empty value. -/
theorem lane0_mark_is_empty :
    (req 0).1 = 0 ∧
    (exec lane0_marked_schedule init).2.lanePc 0 = .hold ∧
    (exec lane0_marked_schedule init).1.filter (fun x => x.2.is_write)
      = [(.lane 0, .write 0 0), (.lane 0, .write 1 0)] ∧
    (exec lane0_marked_schedule init).2.mem.intersection (req 0).1 = 0 ∧
    (exec lane0_marked_schedule init).2.mem.intersection (req 0).2 = 0 := by
  decide

/-- C4, counterexample. `main` unlocks `fin` (the signal is "stop"); lane 0 then wins
`trylock`, so `fin` is locked again (the signal is back to "running"); after the unlock by
`main`, lane 1 has three loop-boundary checks return `EBUSY` and starts three passes. -/
theorem stop_signal_relocked :
    (exec (turns .main 12) init).2.mem.fin = .unlocked ∧
    (exec relock_schedule init).1.take 12 = (main_code.take 12).map (fun e => (Tid.main, e)) ∧
    (main_code.take 12).getLast? = some .unlock_fin ∧
    (exec relock_schedule init).2.mem.fin = .locked (.lane 0) ∧
    ((exec relock_schedule init).1.drop 12).count (.lane 1, .trylock_fin 16) = 3 ∧
    ((exec relock_schedule init).1.drop 12).count (.lane 1, .print_entering 1 1) = 3 := by
  decide

/-- C4, as the code has it. `main` unlocks `fin` exactly once and does not lock it afterwards.
In every reachable state in which `main` has unlocked `fin`, `fin` is not owned by `main`: it is
free, destroyed, or owned by a lane that has won `trylock` and is at its unlock of `fin`. A lane
at its loop-boundary check always steps: if `fin` is free it takes `fin` and leaves the loop
for its unlock of `fin`; if `fin` is owned by a thread it gets `EBUSY` and goes back to the
top of the loop, and after the unlock by `main` that owner is another lane at its unlock of
`fin`. A lane at its unlock of `fin` frees `fin` and returns, and a lane that has returned
takes no further step. -/
theorem stop_signal (s : State) (h : Reachable s) :
    main_code.count .unlock_fin = 1 ∧
    (∀ k, main_code.get? k = some .unlock_fin → Event.lock_fin ∉ main_code.drop k) ∧
    (Event.unlock_fin ∈ main_code.take s.mainPc →
      s.mem.fin ≠ .locked .main ∧
      (s.mem.fin = .unlocked ∨ s.mem.fin = .destroyed ∨
        ∃ i : Fin 4, s.mem.fin = .locked (.lane i) ∧ s.lanePc i = .unlock_fin)) ∧
    (∀ i : Fin 4, s.lanePc i = .trylock →
      (s.mem.fin = .unlocked ∨ ∃ t, s.mem.fin = .locked t) ∧
      (s.mem.fin = .unlocked → ∃ s1, step (.lane i) s = some ([.trylock_fin 0], s1) ∧
        s1.lanePc i = .unlock_fin ∧ s1.mem.fin = .locked (.lane i)) ∧
      (∀ t, s.mem.fin = .locked t → ∃ s1, step (.lane i) s = some ([.trylock_fin 16], s1) ∧
        s1.lanePc i = .sleep ∧ s1.mem.fin = .locked t) ∧
      (Event.unlock_fin ∈ main_code.take s.mainPc → ∀ t, s.mem.fin = .locked t →
        ∃ j : Fin 4, j ≠ i ∧ t = .lane j ∧ s.lanePc j = .unlock_fin)) ∧
    (∀ i : Fin 4, s.lanePc i = .unlock_fin →
      ∃ s1, step (.lane i) s = some ([.unlock_fin], s1) ∧
        s1.lanePc i = .returned ∧ s1.mem.fin = .unlocked) ∧
    (∀ i : Fin 4, s.lanePc i = .returned → step (.lane i) s = none) := by
  have hinv := inv_of_reachable s h
  have hk := hinv.pc_le
  refine ⟨by decide, ?_, ?_, ?_, ?_, ?_⟩
  · intro k hget
    have hk11 : k = 11 := by
      by_cases hlt : k < 22
      · interval_cases k <;> simp [main_code, List.range, List.range.loop] at hget
        rfl
      · have : main_code.get? k = none := by
          rw [List.get?_eq_none]; simpa [main_code] using hlt
        rw [this] at hget
        exact absurd hget (by simp)
    subst hk11
    decide
  · intro hu
    rw [unlock_fin_mem_take _ hk] at hu
    have hnm : s.mem.fin ≠ .locked .main := by
      intro e
      have := hinv.fin_main.1 e
      omega
    refine ⟨hnm, ?_⟩
    cases hc : s.mem.fin with
    | uninit => have := hinv.fin_uninit.1 hc; omega
    | unlocked => exact Or.inl rfl
    | destroyed => exact Or.inr (Or.inl rfl)
    | locked t =>
        cases t with
        | main => exact absurd hc hnm
        | lane i => exact Or.inr (Or.inr ⟨i, rfl, (hinv.fin_lane i).1 hc⟩)
  · intro i hpc
    have hi := i.isLt
    have hst := hinv.started i
    have hjo := hinv.joined i
    rw [hpc] at hst hjo
    simp only [reduceCtorEq, false_iff, not_le] at hst
    have hcases : s.mem.fin = .unlocked ∨ ∃ t, s.mem.fin = .locked t := by
      cases hc : s.mem.fin with
      | uninit => have := hinv.fin_uninit.1 hc; omega
      | unlocked => exact Or.inl rfl
      | locked t => exact Or.inr ⟨t, rfl⟩
      | destroyed =>
          have := hinv.fin_destroyed.1 hc
          exact absurd (hjo (by omega)) (by simp)
    refine ⟨hcases, ?_, ?_, ?_⟩
    · intro hf
      refine ⟨{ s with lanePc := Function.update s.lanePc i .unlock_fin,
                       mem := { s.mem with fin := .locked (.lane i) } }, ?_, ?_, ?_⟩
      · simp [step, hpc, lane_fn, hf, pthread_mutex_trylock]
      · simp
      · rfl
    · intro t hf
      refine ⟨{ s with lanePc := Function.update s.lanePc i .sleep,
                       mem := { s.mem with fin := .locked t } }, ?_, ?_, ?_⟩
      · simp [step, hpc, lane_fn, hf, pthread_mutex_trylock]
      · simp
      · rfl
    · intro hu t hf
      rw [unlock_fin_mem_take _ hk] at hu
      cases t with
      | main => have := hinv.fin_main.1 hf; omega
      | lane j =>
          have hj := (hinv.fin_lane j).1 hf
          refine ⟨j, ?_, rfl, hj⟩
          rintro rfl
          rw [hpc] at hj
          exact absurd hj (by simp)
  · intro i hpc
    have hf := (hinv.fin_lane i).2 hpc
    refine ⟨{ s with lanePc := Function.update s.lanePc i .returned,
                     mem := { s.mem with fin := .unlocked } }, ?_, ?_, ?_⟩
    · simp [step, hpc, lane_fn, hf, pthread_mutex_unlock]
    · simp
    · rfl
  · intro i hpc
    simp [step, hpc, lane_fn]

/-- At the end of `relock_schedule`, after the unlock by `main`, `fin` is owned by lane 0,
which is at its unlock of `fin`. -/
theorem stop_signal_witness :
    Event.unlock_fin ∈ main_code.take (exec relock_schedule init).2.mainPc ∧
    (exec relock_schedule init).2.mem.fin ≠ .locked .main ∧
    ((exec relock_schedule init).2.mem.fin = .unlocked ∨
      (exec relock_schedule init).2.mem.fin = .destroyed ∨
      ∃ i : Fin 4, (exec relock_schedule init).2.mem.fin = .locked (.lane i) ∧
        (exec relock_schedule init).2.lanePc i = .unlock_fin) :=
  ⟨by decide,
   (stop_signal _ (exec_reachable relock_schedule init Reachable.init)).2.2.1 (by decide)⟩

end Helgrind
